import Mathlib

/-!
Verification of the triedent copy-on-write radix-trie engine
(src/libraries/triedent).  The definitions below are a shallow embedding of
the C++ sources:

 * `toKey6` / `fromKey6` embed `database::session_base::to_key6`
   (database.hpp:1656) and `from_key6` (database.hpp:1622); bytes are `Nat`
   values, the `uint8_t` stores of the C++ become explicit `% 256`.
 * `tnode` embeds the trie nodes (`value_node` / `inner_node` of node.hpp,
   which is not shipped; their fields are taken from spec section 3): a leaf
   carries its 6-bit key suffix and value bytes, an inner node carries its
   edge label, optional value bytes (the C++ stores an id of a value node
   whose key is always empty, so the data list is inlined), the creating
   writer's version and the packed (branch, child) list standing for the
   64-bit bitmap plus child array.
 * the trie operations follow database.hpp line by line; recursion is
   bounded by the length of the residual key, so every function takes the
   key length as a structural fuel argument and a wrapper instantiates it.
   The object-id indirection of the C++ is dropped: reference-count and
   version checks that only select between an in-place update and a COW
   clone of the same abstract node keep the source's `if`, and id equality
   tests (`new_b != cur_b`) are tracked by an explicit `same` flag.
-/

namespace Triedent

/-- Embeds `database::session_base::to_key6` (database.hpp:1656-1692):
packs 8-bit bytes into 6-bit units, three bytes into four units per loop
iteration, with the 2- and 1-byte tails of the `switch`. -/
def toKey6 : List Nat → List Nat
  | b0 :: b1 :: b2 :: rest =>
      (b0 >>> 2) :: ((b0 &&& 3) <<< 4 ||| b1 >>> 4) ::
        ((b1 &&& 15) <<< 2 ||| b2 >>> 6) :: (b2 &&& 63) :: toKey6 rest
  | [b0, b1] => [b0 >>> 2, (b0 &&& 3) <<< 4 ||| b1 >>> 4, (b1 &&& 15) <<< 2]
  | [b0] => [b0 >>> 2, (b0 &&& 3) <<< 4]
  | [] => []

/-- Embeds `from_key6` (database.hpp:1622-1655): unpacks four 6-bit units
into three bytes per loop iteration; the output is resized to
`(len * 6) / 8` bytes, so a trailing single unit contributes no byte (the
C++ `case 1` writes that byte past the end of the resized buffer).  Stores
go through `uint8_t`, hence the `% 256`. -/
def fromKey6 : List Nat → List Nat
  | a :: b :: c :: d :: rest =>
      ((a <<< 2 ||| b >>> 4) % 256) :: ((b <<< 4 ||| c >>> 2) % 256) ::
        ((c <<< 6 ||| d) % 256) :: fromKey6 rest
  | [a, b, c] => [(a <<< 2 ||| b >>> 4) % 256, (b <<< 4 ||| c >>> 2) % 256]
  | [a, b] => [(a <<< 2 ||| b >>> 4) % 256]
  | [_] => []
  | [] => []

theorem lor_eq_add {k a b : Nat} (ha : a % 2 ^ k = 0) (hb : b < 2 ^ k) :
    a ||| b = a + b := by
  obtain ⟨c, rfl⟩ := Nat.dvd_of_mod_eq_zero ha
  exact (Nat.mul_add_lt_is_or hb c).symm

theorem lor4 (x y : Nat) (hy : y < 4) : x * 4 ||| y = x * 4 + y := by
  have h : x * 4 % 2 ^ 2 = 0 := by omega
  exact lor_eq_add h (by omega)

theorem lor16 (x y : Nat) (hy : y < 16) : x * 16 ||| y = x * 16 + y := by
  have h : x * 16 % 2 ^ 4 = 0 := by omega
  exact lor_eq_add h (by omega)

theorem lor64 (x y : Nat) (hy : y < 64) : x * 64 ||| y = x * 64 + y := by
  have h : x * 64 % 2 ^ 6 = 0 := by omega
  exact lor_eq_add h (by omega)

theorem and3 (x : Nat) : x &&& 3 = x % 4 := by
  have h := Nat.and_pow_two_sub_one_eq_mod x 2
  norm_num at h
  exact h

theorem and15 (x : Nat) : x &&& 15 = x % 16 := by
  have h := Nat.and_pow_two_sub_one_eq_mod x 4
  norm_num at h
  exact h

theorem and63 (x : Nat) : x &&& 63 = x % 64 := by
  have h := Nat.and_pow_two_sub_one_eq_mod x 6
  norm_num at h
  exact h

theorem shl2 (x : Nat) : x <<< 2 = x * 4 := by rw [Nat.shiftLeft_eq]
theorem shl4 (x : Nat) : x <<< 4 = x * 16 := by rw [Nat.shiftLeft_eq]
theorem shl6 (x : Nat) : x <<< 6 = x * 64 := by rw [Nat.shiftLeft_eq]
theorem shr2 (x : Nat) : x >>> 2 = x / 4 := by rw [Nat.shiftRight_eq_div_pow]
theorem shr4 (x : Nat) : x >>> 4 = x / 16 := by rw [Nat.shiftRight_eq_div_pow]
theorem shr6 (x : Nat) : x >>> 6 = x / 64 := by rw [Nat.shiftRight_eq_div_pow]

/-- Round-trip of the 6-bit key codec on byte strings. -/
theorem fromKey6_toKey6 : ∀ k : List Nat, (∀ x ∈ k, x < 256) →
    fromKey6 (toKey6 k) = k
  | [], _ => rfl
  | [b0], h => by
    have h0 : b0 < 256 := h b0 (by simp)
    simp only [toKey6, fromKey6, shl2, shl4, shr2, shr4, and3,
      List.cons.injEq, and_true]
    rw [show b0 % 4 * 16 / 16 = b0 % 4 by omega]
    rw [lor4 (b0 / 4) (b0 % 4) (by omega)]
    omega
  | [b0, b1], h => by
    have h0 : b0 < 256 := h b0 (by simp)
    have h1 : b1 < 256 := h b1 (by simp)
    simp only [toKey6, fromKey6, shl2, shl4, shr2, shr4, and3, and15,
      List.cons.injEq, and_true]
    rw [lor16 (b0 % 4) (b1 / 16) (by omega)]
    rw [show (b0 % 4 * 16 + b1 / 16) / 16 = b0 % 4 by omega]
    rw [lor4 (b0 / 4) (b0 % 4) (by omega)]
    rw [show (b0 % 4 * 16 + b1 / 16) * 16 = (b0 % 4 * 256 + b1 / 16 * 16) by ring]
    rw [show b1 % 16 * 4 / 4 = b1 % 16 by omega]
    rw [lor_eq_add (show (b0 % 4 * 256 + b1 / 16 * 16) % 2 ^ 4 = 0 by omega)
      (show b1 % 16 < 2 ^ 4 by omega)]
    constructor
    · omega
    · omega
  | [b0, b1, b2], h => by
    have h0 : b0 < 256 := h b0 (by simp)
    have h1 : b1 < 256 := h b1 (by simp)
    have h2 : b2 < 256 := h b2 (by simp)
    simp only [toKey6, fromKey6, shl2, shl4, shl6, shr2, shr4, shr6,
      and3, and15, and63, List.cons.injEq, and_true]
    rw [lor16 (b0 % 4) (b1 / 16) (by omega)]
    rw [lor4 (b1 % 16) (b2 / 64) (by omega)]
    rw [show (b0 % 4 * 16 + b1 / 16) / 16 = b0 % 4 by omega]
    rw [lor4 (b0 / 4) (b0 % 4) (by omega)]
    rw [show (b0 % 4 * 16 + b1 / 16) * 16 = b0 % 4 * 256 + b1 / 16 * 16 by ring]
    rw [show (b1 % 16 * 4 + b2 / 64) / 4 = b1 % 16 by omega]
    rw [lor_eq_add (show (b0 % 4 * 256 + b1 / 16 * 16) % 2 ^ 4 = 0 by omega)
      (show b1 % 16 < 2 ^ 4 by omega)]
    rw [show (b1 % 16 * 4 + b2 / 64) * 64 = b1 % 16 * 256 + b2 / 64 * 64 by ring]
    rw [lor_eq_add (show (b1 % 16 * 256 + b2 / 64 * 64) % 2 ^ 6 = 0 by omega)
      (show b2 % 64 < 2 ^ 6 by omega)]
    refine ⟨by omega, by omega, by omega⟩
  | b0 :: b1 :: b2 :: b3 :: rest, h => by
    have h0 : b0 < 256 := h b0 (by simp)
    have h1 : b1 < 256 := h b1 (by simp)
    have h2 : b2 < 256 := h b2 (by simp)
    have ih := fromKey6_toKey6 (b3 :: rest) (fun x hx => h x (by simp [hx]))
    simp only [toKey6] at ih ⊢
    simp only [fromKey6, ih, shl2, shl4, shl6, shr2, shr4, shr6,
      and3, and15, and63, List.cons.injEq, and_true]
    rw [lor16 (b0 % 4) (b1 / 16) (by omega)]
    rw [lor4 (b1 % 16) (b2 / 64) (by omega)]
    rw [show (b0 % 4 * 16 + b1 / 16) / 16 = b0 % 4 by omega]
    rw [lor4 (b0 / 4) (b0 % 4) (by omega)]
    rw [show (b0 % 4 * 16 + b1 / 16) * 16 = b0 % 4 * 256 + b1 / 16 * 16 by ring]
    rw [show (b1 % 16 * 4 + b2 / 64) / 4 = b1 % 16 by omega]
    rw [lor_eq_add (show (b0 % 4 * 256 + b1 / 16 * 16) % 2 ^ 4 = 0 by omega)
      (show b1 % 16 < 2 ^ 4 by omega)]
    rw [show (b1 % 16 * 4 + b2 / 64) * 64 = b1 % 16 * 256 + b2 / 64 * 64 by ring]
    rw [lor_eq_add (show (b1 % 16 * 256 + b2 / 64 * 64) % 2 ^ 6 = 0 by omega)
      (show b2 % 64 < 2 ^ 6 by omega)]
    refine ⟨by omega, by omega, by omega⟩
termination_by k => k.length

/-- Embeds `common_prefix` (database.hpp:483-496); the C++ walks the
shorter view against the longer one, which computes the same symmetric
longest common prefix. -/
def cpfx : List Nat → List Nat → List Nat
  | a :: as, b :: bs => if a = b then a :: cpfx as bs else []
  | _, _ => []

/-- The trie nodes (`value_node` / `inner_node`).  node.hpp is not part of
src/; the fields are modelled from the spec (section 3, "Data model"): a
leaf holds its 6-bit key suffix and value bytes; an inner node holds its
edge label, the optional value bytes (the engine always stores the value
in a leaf with an empty key, database.hpp `make_value(string_view(), v)`),
the creating writer's `version`, and the branch bitmap plus packed child
array, represented as a duplicate-free (branch, child) list. -/
inductive tnode : Type where
  | leaf (key : List Nat) (data : List Nat)
  | inner (key : List Nat) (val : Option (List Nat)) (version : Nat)
      (children : List (Nat × tnode))

/-- `inner_node::has_branch` / `inner_node::branch`: child lookup in the
branch list. -/
def branchOf : List (Nat × tnode) → Nat → Option tnode
  | [], _ => none
  | (i, t) :: rest, b => if i = b then some t else branchOf rest b

/-- Store into branch slot `b` (the C++ writes through
`in.branch(b) = id`); inserts the branch when the bit was not set. -/
def setBranch : List (Nat × tnode) → Nat → tnode → List (Nat × tnode)
  | [], b, t => [(b, t)]
  | (i, c) :: rest, b, t =>
      if i = b then (b, t) :: rest else (i, c) :: setBranch rest b t

/-- Clear branch bit `b` (`in.branches() & ~inner_node::branches(b)`). -/
def removeBranch : List (Nat × tnode) → Nat → List (Nat × tnode)
  | [], _ => []
  | (i, c) :: rest, b => if i = b then rest else (i, c) :: removeBranch rest b

/-- `inner_node::lower_bound(b)`: least set branch ≥ `b`, 64 when none. -/
def lbBranch (ch : List (Nat × tnode)) (b : Nat) : Nat :=
  ch.foldr (fun p acc => if b ≤ p.1 then min p.1 acc else acc) 64

/-- `inner_node::reverse_lower_bound(b)`: greatest set branch ≤ `b`,
-1 when none. -/
def rlbBranch (ch : List (Nat × tnode)) (b : Int) : Int :=
  ch.foldr (fun p acc => if (p.1 : Int) ≤ b then max (p.1 : Int) acc else acc) (-1)

/-- Embeds `database::session::get(id, key)` (database.hpp:1276-1323).
The descent consumes at least one key unit per step, so the recursion is
bounded by the first argument (a structural fuel); `get6` below
instantiates it with the key length. -/
def getN : Nat → Option tnode → List Nat → Option (List Nat)
  | 0, _, _ => none
  | _ + 1, none, _ => none
  | _ + 1, some (.leaf k d), key => if k = key then some d else none
  | n + 1, some (.inner ik iv _ ch), key =>
    if key.length < ik.length then none
    else if key = ik then iv
    else
      let c := cpfx key ik
      if c = ik then
        match branchOf ch (key.getD c.length 0) with
        | none => none
        | some child => getN n (some child) (key.drop (c.length + 1))
      else none

def get6 (root : Option tnode) (key : List Nat) : Option (List Nat) :=
  getN (key.length + 1) root key

/-- Embeds `write_session::set_inner_value` (database.hpp:581-610).  When
the node's version matches the writer's, the value leaf is updated in
place (same-size `memcpy` or re-allocation); otherwise the node is cloned
by `make_inner` with the writer's version.  Both produce the same abstract
node apart from the version stamp. -/
def set_inner_value (ver : Nat) (ik : List Nat) (_iv : Option (List Nat))
    (iver : Nat) (ch : List (Nat × tnode)) (val : List Nat) : tnode :=
  if iver = ver then tnode.inner ik (some val) iver ch
  else tnode.inner ik (some val) ver ch

/-- Body of `write_session::combine_value_nodes` (database.hpp:520-562)
after the swap that makes `k1` the shorter key. -/
def combineGo (ver : Nat) (k1 v1 k2 v2 : List Nat) : tnode :=
  let c := cpfx k1 k2
  if c = k1 then
    let k2sfx := k2.drop c.length
    tnode.inner c (some v1) ver [(k2sfx.getD 0 0, tnode.leaf (k2sfx.drop 1) v2)]
  else
    let b1sfx := k1.drop c.length
    let b2sfx := k2.drop c.length
    tnode.inner c none ver
      [(b1sfx.getD 0 0, tnode.leaf (b1sfx.drop 1) v1),
       (b2sfx.getD 0 0, tnode.leaf (b2sfx.drop 1) v2)]

/-- Embeds `write_session::combine_value_nodes` (database.hpp:520):
called on two leaves with distinct keys; swaps so the shorter key is
first. -/
def combine_value_nodes (ver : Nat) (k1 v1 k2 v2 : List Nat) : tnode :=
  if k1.length > k2.length then combineGo ver k2 v2 k1 v1
  else combineGo ver k1 v1 k2 v2

/-- Embeds `write_session::add_child` (database.hpp:616-718).  Returns the
resulting subtree and the `old_size` out-parameter (`none` stands for the
untouched −1).  `make_value`/`make_inner` build the nodes directly;
`set_value` (database.hpp:564-579) overwrites a refcount-1 same-size leaf
in place or allocates a fresh leaf - both are `tnode.leaf key val` here.
The first argument is the key-length fuel (each recursive call strips the
common prefix plus one branch unit from the key). -/
def add_childN : Nat → Nat → Option tnode → List Nat → List Nat →
    tnode × Option Nat
  | 0, _, _, key, v => (tnode.leaf key v, none)
  | _ + 1, _, none, key, v => (tnode.leaf key v, none)
  | _ + 1, ver, some (.leaf k d), key, v =>
    if k ≠ key then (combine_value_nodes ver k d key v, none)
    else (tnode.leaf key v, some d.length)
  | n + 1, ver, some (.inner ik iv iver ch), key, v =>
    if ik = key then
      (set_inner_value ver ik iv iver ch v, iv.map List.length)
    else
      let c := cpfx ik key
      if c = ik then
        let b := key.getD c.length 0
        if iver ≠ ver ∨ (branchOf ch b).isNone then
          -- copy on write: make_inner(in, in_key, value, branches | 1<<b),
          -- recurse on the (possibly fresh) branch b, then store it
          let r := add_childN n ver (branchOf ch b) (key.drop (c.length + 1)) v
          (tnode.inner ik iv ver (setBranch ch b r.1), r.2)
        else
          -- modify in place
          let r := add_childN n ver (branchOf ch b) (key.drop (c.length + 1)) v
          (tnode.inner ik iv iver (setBranch ch b r.1), r.2)
      else
        if c = key then
          -- the current node splits; its remainder hangs below the new value
          let b1 := ik.getD c.length 0
          let b1key := ik.drop (c.length + 1)
          (tnode.inner c (some v) ver [(b1, tnode.inner b1key iv ver ch)], none)
        else
          -- two branches diverging at the common prefix
          let b1 := key.getD c.length 0
          let b2 := ik.getD c.length 0
          let b1key := key.drop (c.length + 1)
          let b2key := ik.drop (c.length + 1)
          (tnode.inner c none ver
            [(b1, tnode.leaf b1key v), (b2, tnode.inner b2key iv ver ch)], none)

def add_child (ver : Nat) (root : Option tnode) (key v : List Nat) :
    tnode × Option Nat :=
  add_childN (key.length + 1) ver root key v

/-- A write session: the pinned root and the monotonic `_version` counter
(database.hpp:46-61, 201-244). -/
structure WSession where
  root : Option tnode
  ver : Nat

def emptySession : WSession := ⟨none, 0⟩

/-- Embeds `write_session::upsert` (database.hpp:727-744): the session
root becomes the result of `add_child` (whether or not the id changed);
returns the old size, −1 on fresh insert. -/
def upsertS (s : WSession) (k v : List Nat) : WSession × Int :=
  let r := add_child s.ver s.root (toKey6 k) v
  (⟨some r.1, s.ver⟩, match r.2 with | none => -1 | some n => (n : Int))

/-- Embeds `session::get(key)` (database.hpp:1253-1274). -/
def getS (s : WSession) (k : List Nat) : Option (List Nat) :=
  get6 s.root (toKey6 k)

/-- Embeds `write_session::fork` (database.hpp:339-370): resets
`_version`, clones a leaf root, or clones an inner root with
`in.version() + 1` as the new session version. -/
def forkS (s : WSession) : WSession :=
  match s.root with
  | none => ⟨none, 0⟩
  | some (.leaf k d) => ⟨some (.leaf k d), 0⟩
  | some (.inner k v ver ch) => ⟨some (.inner k v (ver + 1) ch), ver + 1⟩

/-- Replay a list of upserts from the empty session (left to right). -/
def runUpserts (ops : List (List Nat × List Nat)) : WSession :=
  ops.foldl (fun s p => (upsertS s p.1 p.2).1) emptySession

/-- Embeds `write_session::remove_child` (database.hpp:1338-1488).
Returns the resulting subtree, the `removed_size` out-parameter and a
flag recording whether the C++ returned the same object id it was given
(`new_b != cur_b` compares ids, and an id can be modified in place, so
the flag is separate from tree equality; when the id is unchanged the
possibly mutated tree is still threaded through).  Faithful to the
source, including the update-branch path that builds
`new_root = make_inner(...)` but then returns `new_br` - the fresh child
id - instead of `new_root` (database.hpp:1426-1433). -/
def remove_childN : Nat → Nat → Option tnode → List Nat →
    Option tnode × Option Nat × Bool
  | 0, _, root, _ => (root, none, true)
  | _ + 1, _, none, _ => (none, none, true)
  | _ + 1, _, some (.leaf k d), key =>
    if k = key then (none, some d.length, false)
    else (some (.leaf k d), none, true)
  | n + 1, ver, some (.inner ik iv iver ch), key =>
    let root := some (tnode.inner ik iv iver ch)
    if ik.length > key.length then (root, none, true)
    else if ik = key then
      match iv with
      | none => (root, none, true)
      | some ivd =>
        if ch.length = 1 then
          -- fuse the single remaining branch into this node's edge
          match ch with
          | [(b, .leaf bk bd)] =>
              (some (.leaf (ik ++ b :: bk) bd), some ivd.length, false)
          | [(b, .inner bk bv _ bch)] =>
              (some (.inner (ik ++ b :: bk) bv ver bch), some ivd.length, false)
          | _ => (root, none, true)
        else if iver = ver then
          -- in place: in.set_value(id()); same object id is returned
          (some (.inner ik none iver ch), some ivd.length, true)
        else
          (some (.inner ik none ver ch), some ivd.length, false)
    else
      match branchOf ch (key.getD ik.length 0) with
      | none => (root, none, true)
      | some curb =>
        let b := key.getD ik.length 0
        if cpfx ik key ≠ ik then (root, none, true)
        else
          let r := remove_childN n ver (some curb) (key.drop (ik.length + 1))
          if r.2.2 then
            -- new_b == cur_b: the C++ returns root; an in-place change of
            -- the child is visible through its unchanged id
            match r.1 with
            | some nbt => (some (.inner ik iv iver (setBranch ch b nbt)), r.2.1, true)
            | none => (root, r.2.1, true)
          else
            match r.1 with
            | some nbt =>
              if iver = ver then
                (some (.inner ik iv iver (setBranch ch b nbt)), r.2.1, true)
              else
                -- source bug: new_root = make_inner(in, in.key(), value,
                -- branches) receives the new child, but `return new_br`
                -- (database.hpp:1432) hands the child id to the caller
                (some nbt, r.2.1, false)
            | none =>
              let nch := removeBranch ch b
              if nch.length + (if iv.isSome then 1 else 0) > 1 then
                (some (.inner ik iv ver nch), r.2.1, false)
              else
                match nch with
                | [] =>
                  match iv with
                  | some ivd2 => (some (.leaf ik ivd2), r.2.1, false)
                  | none => (root, r.2.1, true)  -- assert(in.value()): unreachable
                | [(lb, .leaf ck cd)] =>
                  (some (.leaf (ik ++ lb :: ck) cd), r.2.1, false)
                | [(lb, .inner ck cv _ cch)] =>
                  (some (.inner (ik ++ lb :: ck) cv ver cch), r.2.1, false)
                | _ => (root, r.2.1, true)  -- > 1 branches: unreachable here

def remove_child (ver : Nat) (root : Option tnode) (key : List Nat) :
    Option tnode × Option Nat × Bool :=
  remove_childN (key.length + 1) ver root key

/-- Embeds `write_session::remove` (database.hpp:1325-1337): the session
root becomes the `remove_child` result; returns the removed size or −1. -/
def removeS (s : WSession) (k : List Nat) : WSession × Int :=
  let r := remove_child s.ver s.root (toKey6 k)
  (⟨r.1, s.ver⟩, match r.2.1 with | none => -1 | some n => (n : Int))

/-- One user-level mutation, for the invariant claims. -/
inductive DbOp : Type where
  | upsert (k v : List Nat)
  | remove (k : List Nat)

/-- Replay a list of upsert/remove operations from the empty session. -/
def runOps (ops : List DbOp) : WSession :=
  ops.foldl
    (fun s op => match op with
      | .upsert k v => (upsertS s k v).1
      | .remove k => (removeS s k).1)
    emptySession

mutual
/-- Node count of a tree, used as fuel for the iterator descents (which
recurse into a child per step). -/
def tsize : tnode → Nat
  | .leaf _ _ => 1
  | .inner _ _ _ ch => 1 + tsizeL ch
def tsizeL : List (Nat × tnode) → Nat
  | [] => 0
  | (_, t) :: rest => tsize t + tsizeL rest
end

/-- An iterator path: the C++ stores a vector of (node id, branch char)
pairs with the deepest entry at the back; here the deepest entry is the
head.  Branch −1 denotes the inner node's own value slot. -/
def IterPath : Type := List (tnode × Int)

def nodeKey : tnode → List Nat
  | .leaf k _ => k
  | .inner k _ _ _ => k

/-- The key denoted by an iterator, per `iterator::read_key`
(database.hpp:909-961): each entry contributes its node's key suffix and,
for every entry but the deepest, the branch unit taken. -/
def keyOfEntries : List (tnode × Int) → List Nat
  | [] => []
  | [(n, _)] => nodeKey n
  | (n, b) :: rest => nodeKey n ++ b.toNat :: keyOfEntries rest

def keyOfPath (p : IterPath) : List Nat := keyOfEntries p.reverse

/-- Lexicographic `operator<` of `std::string_view` on the 6-bit units. -/
def ltKeyB : List Nat → List Nat → Bool
  | [], [] => false
  | [], _ :: _ => true
  | _ :: _, [] => false
  | a :: as, b :: bs => if a < b then true else if b < a then false else ltKeyB as bs

/-- The find-first descent inside `session::next` (database.hpp:839-859).
Enters with the top entry (t, b), t inner with branch b present; pushes
entries preferring the inner value.  For a leaf child the C++ reads the
leaf's bytes through `as_inner_node()`; either read leaves the iterator
denoting the same key, modelled as pushing (leaf, −1). -/
def findFirstN : Nat → tnode → Nat → IterPath → IterPath
  | 0, t, b, rest => (t, (b : Int)) :: rest
  | n + 1, t, b, rest =>
    match t with
    | .leaf k d => (tnode.leaf k d, (b : Int)) :: rest
    | .inner ik iv iver ch =>
      let t' := tnode.inner ik iv iver ch
      match branchOf ch b with
      | none => (t', (b : Int)) :: rest
      | some c =>
        match c with
        | .leaf ck cd => (tnode.leaf ck cd, -1) :: (t', (b : Int)) :: rest
        | .inner ck (some cv) cver cch =>
            (tnode.inner ck (some cv) cver cch, -1) :: (t', (b : Int)) :: rest
        | .inner ck none cver cch =>
            findFirstN n (tnode.inner ck none cver cch) (lbBranch cch 0)
              ((t', (b : Int)) :: rest)

/-- Embeds `session::next` (database.hpp:823-865): pop leaves, advance an
inner entry to the next set branch via `lower_bound(branch + 1)`, then
find-first into that subtree; pop on exhaustion. -/
def nextIter : IterPath → IterPath
  | [] => []
  | (t, b) :: rest =>
    match t with
    | .leaf _ _ => nextIter rest
    | .inner ik iv iver ch =>
      let b' := lbBranch ch (b + 1).toNat
      if b' ≤ 63 then
        findFirstN (tsize (tnode.inner ik iv iver ch)) (tnode.inner ik iv iver ch) b' rest
      else nextIter rest

/-- Embeds `session::lower_bound` (database.hpp:1117-1179), including the
final `return result` that ends the descent without re-positioning when
no branch at or above the next key unit exists (database.hpp:1177). -/
def lowerBoundN : Nat → tnode → List Nat → IterPath → IterPath
  | 0, _, _, acc => acc
  | n + 1, t, key, acc =>
    match t with
    | .leaf k d =>
      let acc' := (tnode.leaf k d, -1) :: acc
      if ltKeyB k key then nextIter acc' else acc'
    | .inner ik iv iver ch =>
      let t' := tnode.inner ik iv iver ch
      if ¬ ltKeyB ik key then
        -- in_key >= key
        (let acc' := (t', -1) :: acc; if iv.isNone then nextIter acc' else acc')
      else
        let c := cpfx key ik
        if ¬ ltKeyB c key then
          -- key <= cpre
          (let acc' := (t', -1) :: acc; if iv.isNone then nextIter acc' else acc')
        else
          let b := lbBranch ch (key.getD c.length 0)
          if b < 64 then
            match branchOf ch b with
            | some child =>
                lowerBoundN n child (key.drop (c.length + 1)) ((t', (b : Int)) :: acc)
            | none => acc
          else acc

/-- Session-level `lower_bound(key)`. -/
def lower_bound (s : WSession) (k : List Nat) : IterPath :=
  match s.root with
  | none => []
  | some t => lowerBoundN ((toKey6 k).length + 1) t (toKey6 k) []

/-- The find-last descent of `session::last_with_prefix`
(database.hpp:1073-1094): repeatedly take the greatest set branch. -/
def findLastN : Nat → tnode → IterPath → IterPath
  | 0, _, acc => acc
  | n + 1, t, acc =>
    match t with
    | .leaf k d => (tnode.leaf k d, -1) :: acc
    | .inner ik iv iver ch =>
      let t' := tnode.inner ik iv iver ch
      let b := rlbBranch ch 63
      if b = -1 then (t', -1) :: acc
      else
        match branchOf ch b.toNat with
        | some c => findLastN n c ((t', b) :: acc)
        | none => (t', b) :: acc

/-- Embeds `session::last_with_prefix` (database.hpp:1036-1116).  The
descent keeps the source's shape: no path entries are recorded while the
remaining prefix is consumed, and the child taken is
`in.branch(in.lower_bound(prefix[cpre.size()]))` - the least branch at or
above the next prefix unit, not necessarily the prefix unit itself.  The
out-of-range read `in.branch(64)` (when no such branch exists) is
modelled as the invalid iterator. -/
def lastWithPfxN : Nat → tnode → List Nat → IterPath → IterPath
  | 0, _, _, acc => acc
  | n + 1, t, pfx, acc =>
    match t with
    | .leaf k d =>
      if cpfx k pfx = pfx then (tnode.leaf k d, -1) :: acc else []
    | .inner ik iv iver ch =>
      let t' := tnode.inner ik iv iver ch
      if ik = pfx then findLastN (tsize t') t' acc
      else
        let c := cpfx ik pfx
        if ik.length > pfx.length then
          (if c = pfx then (t', -1) :: acc else [])
        else if c ≠ ik then []
        else
          match branchOf ch (lbBranch ch (pfx.getD c.length 0)) with
          | some child => lastWithPfxN n child (pfx.drop (c.length + 1)) acc
          | none => []

/-- Session-level `last_with_prefix(p)`. -/
def last_with_pfx (s : WSession) (p : List Nat) : IterPath :=
  match s.root with
  | none => []
  | some t => lastWithPfxN ((toKey6 p).length + 1) t (toKey6 p) []

/-! ### The object-id directory (object_db.hpp) -/

/-- `object_db` constants (object_db.hpp:253-254, 288). -/
def ref_count_mask : Nat := 2 ^ 13 - 1

def running_gc_flag : Nat := 256

/-- `create_next_ptr` (object_db.hpp:264). -/
def create_next_ptr (x : Nat) : Nat := x <<< 14

/-- The mutable object_db header: flags, free-list head, high-water mark
and the 64-bit slot array (object_db.hpp:277-286). -/
structure GcHeader where
  flags : Nat
  first_free : Nat
  max_allocated : Nat
  objects : Nat → Nat

/-- Embeds `object_db::gc_start` (object_db.hpp:439-451): sets the
gc-running flag and resets every non-zero refcount to 1 over ids
1..max_allocated.  `~ref_count_mask` on a `uint64_t` is the 64-bit
complement. -/
def gc_start (h : GcHeader) : GcHeader :=
  (List.range' 1 h.max_allocated).foldl
    (fun st i =>
      let v := st.objects i
      if v &&& ref_count_mask ≠ 0 then
        ⟨st.flags, st.first_free, st.max_allocated,
          fun j => if j = i then (v &&& (2 ^ 64 - 2 ^ 13)) ||| 1 else st.objects j⟩
      else st)
    ⟨h.flags ||| running_gc_flag, h.first_free, h.max_allocated, h.objects⟩

/-- Embeds `object_db::gc_finish` (object_db.hpp:453-470).  `last_free`
is initialised to `&h->first_free` and never advanced in the source, so
every store through it writes the header's free-list head; the final
`last_free->store(0)` then clears that head.  The loop decrements slots
with refcount > 1 and leaves all other slots untouched. -/
def gc_finish (h : GcHeader) : GcHeader :=
  let h1 := (List.range' 1 h.max_allocated).foldl
    (fun st i =>
      let v := st.objects i
      if v &&& ref_count_mask > 1 then
        ⟨st.flags, st.first_free, st.max_allocated,
          fun j => if j = i then v - 1 else st.objects j⟩
      else
        ⟨st.flags, create_next_ptr i, st.max_allocated, st.objects⟩)
    h
  -- last_free->store(0); then clear the gc flag (32-bit complement)
  ⟨h1.flags &&& (2 ^ 32 - 1 - running_gc_flag), 0, h1.max_allocated, h1.objects⟩

/-! ### recursive_retain (database.hpp:1554-1579) -/

/-- An id-level view of a node for the recovery walk: `recursive_retain`
only needs each inner node's value id and child-id array. -/
inductive RNode : Type where
  | leaf
  | inner (val : Nat) (children : List Nat)

/-- An id-indexed heap (id 0 is the null reference) plus a refcount map,
standing for the object store and the id directory during recovery. -/
structure RHeap where
  nodes : Nat → Option RNode
  refs : Nat → Nat

def bumpRef (r : Nat → Nat) (i : Nat) : Nat → Nat :=
  fun j => if j = i then r j + 1 else r j

mutual
/-- Embeds `write_session::recursive_retain` (database.hpp:1554-1579),
instrumented with a step bound (first argument) because the child loop of
the source does not terminate: `while (c != e) { recursive_retain(*c);
++e; }` advances the end pointer `e` instead of the cursor `c`
(database.hpp:1571-1577), so `*c` stays the first child and `c` never
reaches `e`.  Returns the refcount map when the call finishes within the
bound, `none` when the bound is exhausted. -/
def rr (h : Nat → Option RNode) (refs : Nat → Nat) (r : Nat) :
    Nat → Option (Nat → Nat)
  | 0 => none
  | fuel + 1 =>
    if r = 0 then some refs
    else
      let cur := refs r
      let refs1 := bumpRef refs r
      if cur > 1 then some refs1
      else
        match h r with
        | none => some refs1
        | some .leaf => some refs1
        | some (.inner v ch) =>
          match rr h refs1 v fuel with
          | none => none
          | some refs2 => rrLoop h refs2 ch 0 ch.length fuel

/-- The child loop of `recursive_retain` with cursor `c` and end index
`e`; the body retains `children[c]` and then executes the source's `++e`. -/
def rrLoop (h : Nat → Option RNode) (refs : Nat → Nat)
    (ch : List Nat) (c e : Nat) : Nat → Option (Nat → Nat)
  | 0 => none
  | fuel + 1 =>
    if c = e then some refs
    else
      match rr h refs (ch.getD c 0) fuel with
      | none => none
      | some refs1 => rrLoop h refs1 ch c (e + 1) fuel
end

/-! ### The compactor step (region_allocator.cpp:278-347) -/

/-- A relocation-queue entry (region_allocator.hpp); an entry is "used"
while `dest_end > dest_begin`. -/
structure QItem where
  src_begin : Nat
  src_end : Nat
  dest_begin : Nat
  dest_end : Nat

def is_used (i : QItem) : Bool := i.dest_end > i.dest_begin

/-- The compactor-visible state: the `done` flag, the 32-entry queue and
the front/push cursors. -/
structure CState where
  done : Bool
  queue : Nat → QItem
  front : Nat
  pos : Nat

/-- The predicate of the condition-variable wait in `run_one`
(region_allocator.cpp:281-283). -/
def waitPred (s : CState) : Bool :=
  s.done || decide (s.front ≠ s.pos) || is_used (s.queue s.front)

/-- Embeds `region_allocator::run_one` (region_allocator.cpp:278-347).
The wait never returns while the predicate is false (`none`).  The body
after the early return - popping the front entry and evacuating it when
used - is abstracted by the `evac` argument, which receives the state
with the advanced front and the popped item; the early return itself is
the source's `if (!_done) { return false; }` (region_allocator.cpp:285). -/
def run_one (evac : CState → QItem → CState) (s : CState) :
    Option (Bool × CState) :=
  if ¬ waitPred s then none
  else if ¬ s.done then some (false, s)
  else
    let item := s.queue s.front
    let s1 : CState := ⟨s.done, s.queue, (s.front + 1) % 32, s.pos⟩
    if is_used item then some (true, evac s1 item) else some (true, s1)

/-! ### The id-directory slot codec (object_db.hpp:21-49) -/

/-- `object_info` (object_db.hpp:21-49): the decoded bit fields of a
64-bit slot.  The C++ declares `_offset` as a 45-bit bitfield
(`std::uint64_t _offset : 45`), so the constructor stores `x >> 18`
truncated to 45 bits. -/
structure object_info where
  ref : Nat
  position_lock : Nat
  type : Nat
  cache : Nat
  _offset : Nat

/-- The `object_info` constructor from a slot value (object_db.hpp:23-29). -/
def object_info.ofInt (x : Nat) : object_info :=
  ⟨x &&& (2 ^ 13 - 1), (x >>> 13) &&& 1, (x >>> 14) &&& 3, (x >>> 16) &&& 3,
    (x >>> 18) &&& (2 ^ 45 - 1)⟩

/-- `object_info::to_int` (object_db.hpp:43-47). -/
def object_info.to_int (o : object_info) : Nat :=
  o.ref ||| (o.position_lock <<< 13) ||| (o.type <<< 14) |||
    (o.cache <<< 16) ||| (o._offset <<< 18)

/-! ### Common-prefix and list lemmas -/

theorem cpfx_nil_left (b : List Nat) : cpfx [] b = [] := by cases b <;> rfl

theorem cpfx_nil_right (a : List Nat) : cpfx a [] = [] := by cases a <;> rfl

theorem cpfx_comm : ∀ a b : List Nat, cpfx a b = cpfx b a := by
  intro a
  induction a with
  | nil => intro b; rw [cpfx_nil_left, cpfx_nil_right]
  | cons x xs ih =>
    intro b
    cases b with
    | nil => rw [cpfx_nil_left, cpfx_nil_right]
    | cons y ys =>
      simp only [cpfx]
      by_cases h : x = y
      · subst h; simp [ih]
      · simp [h, Ne.symm h]

theorem cpfx_append (p : List Nat) : ∀ x y : List Nat,
    cpfx (p ++ x) (p ++ y) = p ++ cpfx x y := by
  induction p with
  | nil => intro x y; rfl
  | cons a as ih => intro x y; simp [cpfx, ih]

theorem cpfx_self_append (a t : List Nat) : cpfx a (a ++ t) = a := by
  have h := cpfx_append a [] t
  simpa [cpfx_nil_left] using h

theorem cpfx_self (a : List Nat) : cpfx a a = a := by
  simpa using cpfx_self_append a []

theorem cpfx_pfx : ∀ a b : List Nat, ∃ t, a = cpfx a b ++ t
  | [], b => ⟨[], by simp [cpfx_nil_left]⟩
  | a :: as, [] => ⟨a :: as, by simp [cpfx_nil_right]⟩
  | a :: as, b :: bs => by
    by_cases h : a = b
    · obtain ⟨t, ht⟩ := cpfx_pfx as bs
      exact ⟨t, by simp only [cpfx, if_pos h]; rw [List.cons_append, ← ht]⟩
    · exact ⟨a :: as, by simp [cpfx, h]⟩

theorem exists_of_cpfx_left {a b : List Nat} (h : cpfx a b = a) :
    ∃ t, b = a ++ t := by
  obtain ⟨t, ht⟩ := cpfx_pfx b a
  rw [cpfx_comm b a, h] at ht
  exact ⟨t, ht⟩

theorem cpfx_length_le_left : ∀ a b : List Nat, (cpfx a b).length ≤ a.length
  | [], b => by simp [cpfx_nil_left]
  | a :: as, [] => by simp [cpfx_nil_right]
  | a :: as, b :: bs => by
    by_cases h : a = b
    · simp only [cpfx, if_pos h, List.length_cons]
      exact Nat.succ_le_succ (cpfx_length_le_left as bs)
    · simp [cpfx, h]

theorem cpfx_head_ne : ∀ a b : List Nat, cpfx a b ≠ a → cpfx a b ≠ b →
    a.getD (cpfx a b).length 0 ≠ b.getD (cpfx a b).length 0
  | [], b, h1, _ => absurd (cpfx_nil_left b) h1
  | a :: as, [], _, h2 => absurd (cpfx_nil_right (a :: as)) h2
  | a :: as, b :: bs, h1, h2 => by
    by_cases h : a = b
    · subst h
      have hcp : cpfx (a :: as) (a :: bs) = a :: cpfx as bs := by simp [cpfx]
      rw [hcp] at h1 h2
      have h1' : cpfx as bs ≠ as := fun e => h1 (by rw [e])
      have h2' : cpfx as bs ≠ bs := fun e => h2 (by rw [e])
      have ih := cpfx_head_ne as bs h1' h2'
      simp only [hcp, List.length_cons, List.getD_cons_succ]
      exact ih
    · simp only [cpfx, if_neg h, List.length_nil, List.getD_cons_zero]
      exact h

theorem getD_append_cons : ∀ (p : List Nat) (x : Nat) (t : List Nat),
    (p ++ x :: t).getD p.length 0 = x := by
  intro p
  induction p with
  | nil => intro x t; rfl
  | cons a as ih => intro x t; simpa [List.getD] using ih x t

theorem drop_append_cons : ∀ (p : List Nat) (x : Nat) (t : List Nat),
    (p ++ x :: t).drop (p.length + 1) = t := by
  intro p
  induction p with
  | nil => intro x t; rfl
  | cons a as ih =>
    intro x t
    simp only [List.cons_append, List.length_cons, List.drop_succ_cons]
    exact ih x t

/-- Decomposition of a proper extension of `ik`. -/
theorem ext_decomp {key ik : List Nat} (h : cpfx key ik = ik) (hne : key ≠ ik) :
    key = ik ++ key.getD ik.length 0 :: key.drop (ik.length + 1) := by
  have h' : cpfx ik key = ik := by rw [cpfx_comm]; exact h
  obtain ⟨t, ht⟩ := exists_of_cpfx_left h'
  cases t with
  | nil => exact absurd (by simpa using ht) hne
  | cons x t' =>
    subst ht
    rw [getD_append_cons, drop_append_cons]

/-! ### Characterization of `get6` -/

theorem get6_none (key : List Nat) : get6 none key = none := rfl

theorem get6_leaf (k d key : List Nat) :
    get6 (some (.leaf k d)) key = if k = key then some d else none := rfl

theorem getN_mono : ∀ n m : Nat, ∀ root : Option tnode, ∀ key : List Nat,
    key.length < n → key.length < m → getN n root key = getN m root key := by
  intro n
  induction n with
  | zero => intro m root key h1; omega
  | succ n ih =>
    intro m root key h1 h2
    cases m with
    | zero => omega
    | succ m =>
      cases root with
      | none => rfl
      | some t =>
        cases t with
        | leaf k d => rfl
        | inner ik iv iver ch =>
          simp only [getN]
          by_cases hl : key.length < ik.length
          · simp [hl]
          · simp only [if_neg hl]
            by_cases he : key = ik
            · simp [he]
            · simp only [if_neg he]
              by_cases hc : cpfx key ik = ik
              · simp only [if_pos hc]
                cases hb : branchOf ch (key.getD (cpfx key ik).length 0) with
                | none => rfl
                | some child =>
                  have hlen : (key.drop ((cpfx key ik).length + 1)).length < key.length := by
                    have := ext_decomp hc he
                    rw [hc]
                    simp only [List.length_drop]
                    have : ik.length < key.length := by
                      by_contra hle
                      push_neg at hle
                      have h3 := congrArg List.length (ext_decomp hc he)
                      simp at h3
                      omega
                    omega
                  exact ih m (some child) _ (by omega) (by omega)
              · simp [hc]

theorem get6_inner_self (ik : List Nat) (iv : Option (List Nat)) (iver : Nat)
    (ch : List (Nat × tnode)) : get6 (some (.inner ik iv iver ch)) ik = iv := by
  simp [get6, getN]

theorem get6_inner_none {key ik : List Nat} {iv : Option (List Nat)} {iver : Nat}
    {ch : List (Nat × tnode)} (h : cpfx key ik ≠ ik) :
    get6 (some (.inner ik iv iver ch)) key = none := by
  have hne : key ≠ ik := fun e => h (by rw [e, cpfx_self])
  simp only [get6, getN]
  by_cases hl : key.length < ik.length
  · simp [hl]
  · simp [hl, hne, h]

theorem get6_inner_ext (ik : List Nat) (iv : Option (List Nat)) (iver : Nat)
    (ch : List (Nat × tnode)) (b : Nat) (rest : List Nat) :
    get6 (some (.inner ik iv iver ch)) (ik ++ b :: rest) =
      match branchOf ch b with
      | none => none
      | some child => get6 (some child) rest := by
  have hlen : ¬ (ik ++ b :: rest).length < ik.length := by simp
  have hne : ik ++ b :: rest ≠ ik := by
    intro e
    have := congrArg List.length e
    simp at this
  have hc : cpfx (ik ++ b :: rest) ik = ik := by
    rw [cpfx_comm]; exact cpfx_self_append ik (b :: rest)
  simp only [get6, getN, if_neg hlen, if_neg hne, if_pos hc, hc,
    getD_append_cons, drop_append_cons]
  cases hb : branchOf ch b with
  | none => rfl
  | some child =>
    exact getN_mono _ _ (some child) rest (by simp; omega) (by omega)

theorem cpfx_append_left (c t : List Nat) : cpfx (c ++ t) c = c := by
  rw [cpfx_comm]; exact cpfx_self_append c t

theorem ext_decomp' {key ik : List Nat} (h : cpfx key ik = ik) (hne : key ≠ ik) :
    ∃ b rest, key = ik ++ b :: rest :=
  ⟨key.getD ik.length 0, key.drop (ik.length + 1), ext_decomp h hne⟩

theorem drop_len_append : ∀ (c t : List Nat), (c ++ t).drop c.length = t := by
  intro c
  induction c with
  | nil => intro t; rfl
  | cons a as ih => intro t; simp only [List.cons_append, List.length_cons,
      List.drop_succ_cons]; exact ih t

/-- `cpfx` is idempotent on the left. -/
theorem cpfx_idem : ∀ a b : List Nat, cpfx a (cpfx a b) = cpfx a b
  | [], b => by rw [cpfx_nil_left, cpfx_nil_left]
  | a :: as, [] => by rw [cpfx_nil_right, cpfx_nil_right]
  | a :: as, b :: bs => by
    by_cases h : a = b
    · subst h
      simp [cpfx]
      exact cpfx_idem as bs
    · simp [cpfx, h]

/-- `get6` on a `combineGo` of two keys diverging right after `c`. -/
theorem get6_combineGo_div (ver : Nat) (c : List Nat) (b1 : Nat)
    (t1 v1 : List Nat) (b2 : Nat) (t2 v2 key' : List Nat) (hb : b1 ≠ b2) :
    get6 (some (combineGo ver (c ++ b1 :: t1) v1 (c ++ b2 :: t2) v2)) key' =
      if key' = c ++ b1 :: t1 then some v1
      else if key' = c ++ b2 :: t2 then some v2 else none := by
  have hcp : cpfx (c ++ b1 :: t1) (c ++ b2 :: t2) = c := by
    rw [cpfx_append]; simp [cpfx, hb]
  have hnode : combineGo ver (c ++ b1 :: t1) v1 (c ++ b2 :: t2) v2 =
      tnode.inner c none ver
        [(b1, tnode.leaf t1 v1), (b2, tnode.leaf t2 v2)] := by
    simp only [combineGo, hcp]
    rw [if_neg (show ¬ c = c ++ b1 :: t1 by simp)]
    rw [drop_len_append c (b1 :: t1), drop_len_append c (b2 :: t2)]
    simp
  rw [hnode]
  have hne1 : ∀ r : List Nat, c ≠ c ++ b1 :: r := by intro r h; simp at h
  have hne2 : ∀ r : List Nat, c ≠ c ++ b2 :: r := by intro r h; simp at h
  by_cases hkc : key' = c
  · subst hkc
    simp [get6_inner_self, hne1, hne2]
  · by_cases hcp' : cpfx key' c = c
    · obtain ⟨b', rest', hd'⟩ := ext_decomp' hcp' hkc
      subst hd'
      rw [get6_inner_ext]
      by_cases hb1' : b1 = b'
      · subst hb1'
        simp only [branchOf, if_pos rfl, get6_leaf]
        by_cases ht : t1 = rest'
        · subst ht; simp [get6_leaf]
        · have htn : ¬ rest' = t1 := fun e => ht e.symm
          simp [get6_leaf, ht, htn, hb]
      · by_cases hb2' : b2 = b'
        · subst hb2'
          simp only [branchOf, if_neg hb1', if_pos rfl, get6_leaf]
          have hbn : ¬ b2 = b1 := fun e => hb1' e.symm
          by_cases ht : t2 = rest'
          · subst ht
            simp [get6_leaf, hbn]
          · have htn : ¬ rest' = t2 := fun e => ht e.symm
            simp [get6_leaf, ht, htn, hbn]
        · simp only [branchOf, if_neg hb1', if_neg hb2']
          have hn1 : ¬ b' = b1 := fun e => hb1' e.symm
          have hn2 : ¬ b' = b2 := fun e => hb2' e.symm
          simp [hn1, hn2]
    · rw [get6_inner_none hcp']
      have e1 : key' ≠ c ++ b1 :: t1 := by
        intro e; subst e
        exact hcp' (cpfx_append_left _ _)
      have e2 : key' ≠ c ++ b2 :: t2 := by
        intro e; subst e
        exact hcp' (cpfx_append_left _ _)
      simp [e1, e2]

/-- `get6` on a `combineGo` whose first key is a proper prefix of the
second. -/
theorem get6_combineGo_pfx (ver : Nat) (k1 v1 : List Nat) (b2 : Nat)
    (t2 v2 key' : List Nat) :
    get6 (some (combineGo ver k1 v1 (k1 ++ b2 :: t2) v2)) key' =
      if key' = k1 then some v1
      else if key' = k1 ++ b2 :: t2 then some v2 else none := by
  have hnode : combineGo ver k1 v1 (k1 ++ b2 :: t2) v2 =
      tnode.inner k1 (some v1) ver [(b2, tnode.leaf t2 v2)] := by
    simp only [combineGo, cpfx_self_append, if_pos rfl]
    rw [drop_len_append k1 (b2 :: t2)]
    simp
  rw [hnode]
  by_cases hk1 : key' = k1
  · subst hk1
    simp [get6_inner_self]
  · by_cases hcp : cpfx key' k1 = k1
    · obtain ⟨b', rest', hd'⟩ := ext_decomp' hcp hk1
      subst hd'
      rw [get6_inner_ext]
      have hkne : ¬ (k1 ++ b' :: rest' = k1) := hk1
      by_cases hb : b2 = b'
      · subst hb
        simp only [branchOf, if_pos rfl, get6_leaf]
        by_cases ht : t2 = rest'
        · subst ht; simp [get6_leaf, hkne]
        · have htn : ¬ rest' = t2 := fun e => ht e.symm
          simp [get6_leaf, hkne, ht, htn]
      · simp only [branchOf, if_neg hb]
        have hbn : ¬ b' = b2 := fun e => hb e.symm
        simp [hkne, hbn]
    · rw [get6_inner_none hcp]
      have hk2 : ¬ (key' = k1 ++ b2 :: t2) := by
        intro e; subst e
        exact hcp (cpfx_append_left k1 (b2 :: t2))
      simp [hk1, hk2]

/-- `get6` on the result of `combineGo` for distinct keys, the shorter
first. -/
theorem get6_combineGo (ver : Nat) (k1 v1 k2 v2 key' : List Nat)
    (hne : k1 ≠ k2) (hlen : k1.length ≤ k2.length) :
    get6 (some (combineGo ver k1 v1 k2 v2)) key' =
      if key' = k1 then some v1 else if key' = k2 then some v2 else none := by
  by_cases hc : cpfx k1 k2 = k1
  · obtain ⟨b2, t2, hd⟩ := ext_decomp' (by rw [cpfx_comm]; exact hc) (Ne.symm hne)
    rw [hd]
    exact get6_combineGo_pfx ver k1 v1 b2 t2 v2 key'
  · have hc2 : cpfx k1 k2 ≠ k2 := by
      intro e
      have hl2 := cpfx_length_le_left k1 k2
      rw [e] at hl2
      obtain ⟨t, ht⟩ := cpfx_pfx k1 k2
      rw [e] at ht
      have hlen2 := congrArg List.length ht
      rw [List.length_append] at hlen2
      have hte : t = [] := List.eq_nil_of_length_eq_zero (by omega)
      subst hte
      simp at ht
      exact hne ht
    obtain ⟨t1', hd1⟩ := cpfx_pfx k1 k2
    obtain ⟨t2', hd2⟩ := cpfx_pfx k2 k1
    rw [cpfx_comm k2 k1] at hd2
    cases t1' with
    | nil => exact absurd (by simpa using hd1.symm) hc
    | cons b1 t1 =>
      cases t2' with
      | nil => exact absurd (by simpa using hd2.symm) hc2
      | cons b2 t2 =>
        have hb : b1 ≠ b2 := by
          intro he
          subst he
          have e := cpfx_append (cpfx k1 k2) (b1 :: t1) (b1 :: t2)
          rw [← hd1, ← hd2] at e
          have hlen3 := congrArg List.length e
          rw [List.length_append] at hlen3
          have : cpfx (b1 :: t1) (b1 :: t2) = [] :=
            List.eq_nil_of_length_eq_zero (by omega)
          simp [cpfx] at this
        obtain ⟨c, hc_eq⟩ : ∃ c, cpfx k1 k2 = c := ⟨_, rfl⟩
        rw [hc_eq] at hd1 hd2
        rw [hd1, hd2]
        exact get6_combineGo_div ver c b1 t1 v1 b2 t2 v2 key' hb

/-- `get6` on the result of `combine_value_nodes`. -/
theorem get6_combine (ver : Nat) (k1 v1 k2 v2 key' : List Nat) (hne : k1 ≠ k2) :
    get6 (some (combine_value_nodes ver k1 v1 k2 v2)) key' =
      if key' = k1 then some v1 else if key' = k2 then some v2 else none := by
  unfold combine_value_nodes
  by_cases hl : k1.length > k2.length
  · rw [if_pos hl, get6_combineGo ver k2 v2 k1 v1 key' (Ne.symm hne) (by omega)]
    by_cases h1 : key' = k1 <;> by_cases h2 : key' = k2 <;> simp_all
  · rw [if_neg hl]
    exact get6_combineGo ver k1 v1 k2 v2 key' hne (by omega)

theorem branchOf_setBranch_self : ∀ (ch : List (Nat × tnode)) (b : Nat) (t : tnode),
    branchOf (setBranch ch b t) b = some t := by
  intro ch
  induction ch with
  | nil => intro b t; simp [setBranch, branchOf]
  | cons p rest ih =>
    intro b t
    by_cases h : p.1 = b
    · simp [setBranch, branchOf, h]
    · simp only [setBranch, branchOf, if_neg h]
      exact ih b t

theorem branchOf_setBranch_ne : ∀ (ch : List (Nat × tnode)) (b : Nat) (t : tnode)
    (b' : Nat), b' ≠ b → branchOf (setBranch ch b t) b' = branchOf ch b' := by
  intro ch
  induction ch with
  | nil =>
    intro b t b' h
    have h' : ¬ b = b' := fun e => h (Eq.symm e)
    simp [setBranch, branchOf, h']
  | cons p rest ih =>
    intro b t b' h
    by_cases hp : p.1 = b
    · simp only [setBranch, if_pos hp, branchOf]
      rw [if_neg (fun e => h e.symm), if_neg (by rw [hp]; exact fun e => h e.symm)]
    · simp only [setBranch, if_neg hp, branchOf]
      by_cases hp' : p.1 = b'
      · simp [hp']
      · rw [if_neg hp', if_neg hp']
        exact ih b t b' h

/-- `get6` never inspects the version stamp. -/
theorem get6_ver_irrel (ik : List Nat) (iv : Option (List Nat)) (v1 v2 : Nat)
    (ch : List (Nat × tnode)) (key' : List Nat) :
    get6 (some (.inner ik iv v1 ch)) key' = get6 (some (.inner ik iv v2 ch)) key' := rfl

/-- Prepending a common prefix to the edge label and the query shifts
`get6` uniformly. -/
theorem get6_shift (p q : List Nat) (iv : Option (List Nat)) (ver : Nat)
    (ch : List (Nat × tnode)) (r : List Nat) :
    get6 (some (.inner (p ++ q) iv ver ch)) (p ++ r) =
      get6 (some (.inner q iv ver ch)) r := by
  by_cases hq : r = q
  · subst hq
    rw [get6_inner_self, get6_inner_self]
  · by_cases hcp : cpfx r q = q
    · obtain ⟨b, rest, hd⟩ := ext_decomp' hcp hq
      subst hd
      rw [show p ++ (q ++ b :: rest) = (p ++ q) ++ b :: rest from
        (List.append_assoc p q (b :: rest)).symm]
      rw [get6_inner_ext, get6_inner_ext]
    · rw [get6_inner_none hcp, get6_inner_none (by
        rw [cpfx_append]
        intro e
        exact hcp (List.append_cancel_left e))]

theorem get6_inner_ext_some {ch : List (Nat × tnode)} {b : Nat} {child : tnode}
    (ik : List Nat) (iv : Option (List Nat)) (iver : Nat) (rest : List Nat)
    (h : branchOf ch b = some child) :
    get6 (some (.inner ik iv iver ch)) (ik ++ b :: rest) = get6 (some child) rest := by
  rw [get6_inner_ext, h]

theorem get6_inner_ext_none {ch : List (Nat × tnode)} {b : Nat}
    (ik : List Nat) (iv : Option (List Nat)) (iver : Nat) (rest : List Nat)
    (h : branchOf ch b = none) :
    get6 (some (.inner ik iv iver ch)) (ik ++ b :: rest) = none := by
  rw [get6_inner_ext, h]

/-- The functional contract of `add_child`: the inserted key maps to the
new value and every other key is untouched (database.hpp:616-718). -/
theorem get6_add_child : ∀ fuel ver : Nat, ∀ root : Option tnode,
    ∀ key v key' : List Nat, key.length < fuel →
    get6 (some (add_childN fuel ver root key v).1) key' =
      if key' = key then some v else get6 root key' := by
  intro fuel
  induction fuel with
  | zero => intro ver root key v key' h; omega
  | succ n ih =>
    intro ver root key v key' h
    cases root with
    | none =>
      simp only [add_childN, get6_leaf, get6_none]
      by_cases hk : key' = key
      · subst hk; simp
      · have hk' : ¬ key = key' := fun e => hk (Eq.symm e)
        simp [hk, hk']
    | some t =>
      cases t with
      | leaf k d =>
        simp only [add_childN]
        by_cases hkd : k ≠ key
        · rw [if_pos hkd]
          rw [get6_combine ver k d key v key' hkd, get6_leaf]
          by_cases h1 : key' = k
          · subst h1
            have h2 : ¬ (key' = key) := fun e => hkd (e ▸ rfl)
            simp [h2]
          · have h1' : ¬ (k = key') := fun e => h1 (Eq.symm e)
            by_cases h2 : key' = key
            · have hxk : ¬ key = k := fun e => hkd (Eq.symm e)
              simp [h1, h2, hxk]
            · simp [h1, h1', h2]
        · rw [if_neg hkd]
          push_neg at hkd
          subst hkd
          rw [get6_leaf, get6_leaf]
          by_cases h2 : key' = k
          · subst h2; simp
          · have h2' : ¬ k = key' := fun e => h2 (Eq.symm e)
            simp [h2, h2']
      | inner ik iv iver ch =>
        by_cases hik : ik = key
        · simp only [add_childN]
          rw [if_pos hik]
          subst hik
          have hmain : ∀ w : Nat,
              get6 (some (tnode.inner ik (some v) w ch)) key' =
                if key' = ik then some v
                else get6 (some (tnode.inner ik iv iver ch)) key' := by
            intro w
            by_cases hk : key' = ik
            · subst hk; simp [get6_inner_self]
            · rw [if_neg hk]
              by_cases hcp : cpfx key' ik = ik
              · obtain ⟨b, rest, hd⟩ := ext_decomp' hcp hk
                subst hd
                rw [get6_inner_ext, get6_inner_ext]
              · rw [get6_inner_none hcp, get6_inner_none hcp]
          simp only [set_inner_value]
          split
          · exact hmain iver
          · exact hmain ver
        · by_cases hcp : cpfx ik key = ik
          · -- the key extends the edge: descend into branch b0
            have hcp2 : cpfx key ik = ik := by rw [cpfx_comm]; exact hcp
            obtain ⟨b0, rest0, hd⟩ := ext_decomp' hcp2 (fun e => hik (Eq.symm e))
            subst hd
            have hrl : rest0.length < n := by
              simp [List.length_append] at h
              omega
            simp only [add_childN]
            rw [if_neg hik]
            rw [if_pos (cpfx_self_append ik (b0 :: rest0))]
            simp only [cpfx_self_append, getD_append_cons, drop_append_cons]
            have hmain : ∀ w : Nat,
                get6 (some (tnode.inner ik iv w
                    (setBranch ch b0
                      (add_childN n ver (branchOf ch b0) rest0 v).1))) key' =
                  if key' = ik ++ b0 :: rest0 then some v
                  else get6 (some (tnode.inner ik iv iver ch)) key' := by
              intro w
              by_cases hk : key' = ik
              · rw [hk]
                rw [get6_inner_self, if_neg (by simp :
                  ¬ (ik = ik ++ b0 :: rest0)), get6_inner_self]
              · by_cases hcp' : cpfx key' ik = ik
                · obtain ⟨b', rest', hd'⟩ := ext_decomp' hcp' hk
                  subst hd'
                  by_cases hb : b' = b0
                  · subst hb
                    rw [get6_inner_ext_some ik iv w rest'
                      (branchOf_setBranch_self ch b' _)]
                    rw [ih ver (branchOf ch b') rest0 v rest' hrl]
                    by_cases hr : rest' = rest0
                    · subst hr
                      rw [if_pos rfl, if_pos rfl]
                    · rw [if_neg hr, if_neg (by
                        simp [List.append_cancel_left_eq]
                        intro e
                        exact absurd e hr)]
                      cases hbr : branchOf ch b' with
                      | none =>
                        rw [get6_none, get6_inner_ext_none ik iv iver rest' hbr]
                      | some child =>
                        rw [get6_inner_ext_some ik iv iver rest' hbr]
                  · rw [get6_inner_ext, branchOf_setBranch_ne ch b0 _ b' hb,
                      get6_inner_ext]
                    rw [if_neg (by
                      simp [List.append_cancel_left_eq]
                      intro e
                      exact absurd e hb)]
                · rw [get6_inner_none hcp', get6_inner_none hcp']
                  rw [if_neg (by
                    intro e; subst e
                    exact hcp' (cpfx_append_left ik (b0 :: rest0)))]
            split
            · exact hmain ver
            · exact hmain iver
          · by_cases hck : cpfx ik key = key
            · -- the inserted key is a proper prefix of the edge
              obtain ⟨b1, t1, hd⟩ := ext_decomp' hck hik
              subst hd
              simp only [add_childN]
              rw [if_neg hik, if_neg hcp, if_pos hck]
              simp only [cpfx_append_left, getD_append_cons, drop_append_cons]
              by_cases hk : key' = key
              · subst hk
                rw [get6_inner_self, if_pos rfl]
              · rw [if_neg hk]
                by_cases hcp' : cpfx key' key = key
                · obtain ⟨b', rest', hd'⟩ := ext_decomp' hcp' hk
                  subst hd'
                  by_cases hb : b1 = b'
                  · subst hb
                    rw [get6_inner_ext_some key (some v) ver rest'
                      (by simp [branchOf] : branchOf
                        [(b1, tnode.inner t1 iv ver ch)] b1 =
                          some (tnode.inner t1 iv ver ch))]
                    have hshift :
                        get6 (some (tnode.inner (key ++ b1 :: t1) iv iver ch))
                            (key ++ b1 :: rest') =
                          get6 (some (tnode.inner t1 iv iver ch)) rest' := by
                      rw [show key ++ b1 :: t1 = (key ++ [b1]) ++ t1 by simp]
                      rw [show key ++ b1 :: rest' = (key ++ [b1]) ++ rest' by simp]
                      exact get6_shift (key ++ [b1]) t1 iv iver ch rest'
                    rw [hshift]
                    exact get6_ver_irrel t1 iv ver iver ch rest'
                  · rw [get6_inner_ext_none key (some v) ver rest'
                      (by simp [branchOf, hb] : branchOf
                        [(b1, tnode.inner t1 iv ver ch)] b' = none)]
                    rw [get6_inner_none (by
                      rw [cpfx_append]
                      have hb' : ¬ b' = b1 := fun e => hb (Eq.symm e)
                      have hn : cpfx (b' :: rest') (b1 :: t1) = [] := by
                        simp [cpfx, hb']
                      rw [hn]
                      simp)]
                · rw [get6_inner_none hcp']
                  rw [get6_inner_none (by
                    intro e
                    apply hcp'
                    have e' := (cpfx_comm _ _).trans e
                    obtain ⟨t, ht⟩ := exists_of_cpfx_left e'
                    rw [ht, List.append_assoc]
                    exact cpfx_append_left _ _)]
            · -- the edge and the key diverge inside the common prefix
              obtain ⟨tc, hdc⟩ : ∃ c, cpfx ik key = c := ⟨_, rfl⟩
              have hpi : cpfx ik tc = tc := by rw [← hdc]; exact cpfx_idem ik key
              have hpk : cpfx key tc = tc := by
                rw [← hdc, cpfx_comm ik key]
                exact cpfx_idem key ik
              obtain ⟨b2, t2, hd2⟩ := ext_decomp' hpi
                (fun e => hcp (by rw [hdc]; exact e.symm))
              obtain ⟨b1, t1, hd1⟩ := ext_decomp' hpk
                (fun e => hck (by rw [hdc]; exact e.symm))
              have hb12 : b1 ≠ b2 := by
                intro he
                subst he
                have e := cpfx_append tc (b1 :: t2) (b1 :: t1)
                rw [← hd2, ← hd1, hdc] at e
                have hlen3 := congrArg List.length e
                rw [List.length_append] at hlen3
                have hnil : cpfx (b1 :: t2) (b1 :: t1) = [] :=
                  List.eq_nil_of_length_eq_zero (by omega)
                simp [cpfx] at hnil
              subst hd1
              subst hd2
              simp only [add_childN]
              rw [if_neg hik, if_neg hcp, if_neg hck]
              simp only [hdc, getD_append_cons, drop_append_cons]
              have hikn : ∀ r : List Nat,
                  cpfx (tc ++ b1 :: r) (tc ++ b2 :: t2) ≠ tc ++ b2 :: t2 := by
                intro r
                rw [cpfx_append]
                simp [cpfx, hb12]
              by_cases hk : key' = tc ++ b1 :: t1
              · subst hk
                rw [if_pos rfl]
                rw [get6_inner_ext_some tc none ver t1
                  (by simp [branchOf] : branchOf
                    [(b1, tnode.leaf t1 v),
                     (b2, tnode.inner t2 iv ver ch)] b1 = some (tnode.leaf t1 v))]
                rw [get6_leaf, if_pos rfl]
              · rw [if_neg hk]
                by_cases hcp' : cpfx key' tc = tc
                · by_cases hkc : key' = tc
                  · subst hkc
                    rw [get6_inner_self]
                    rw [get6_inner_none (by
                      rw [cpfx_comm, cpfx_append_left]
                      simp)]
                  · obtain ⟨b', rest', hd'⟩ := ext_decomp' hcp' hkc
                    subst hd'
                    by_cases hb1 : b1 = b'
                    · subst hb1
                      rw [get6_inner_ext_some tc none ver rest'
                        (by simp [branchOf] : branchOf
                          [(b1, tnode.leaf t1 v),
                           (b2, tnode.inner t2 iv ver ch)] b1 =
                            some (tnode.leaf t1 v))]
                      rw [get6_leaf]
                      have ht1 : ¬ (t1 = rest') := by
                        intro e; subst e; exact hk rfl
                      rw [if_neg ht1, get6_inner_none (hikn rest')]
                    · by_cases hb2 : b2 = b'
                      · subst hb2
                        rw [get6_inner_ext_some tc none ver rest'
                          (by simp [branchOf, hb1] : branchOf
                            [(b1, tnode.leaf t1 v),
                             (b2, tnode.inner t2 iv ver ch)] b2 =
                              some (tnode.inner t2 iv ver ch))]
                        have hshift :
                            get6 (some (tnode.inner (tc ++ b2 :: t2) iv iver ch))
                                (tc ++ b2 :: rest') =
                              get6 (some (tnode.inner t2 iv iver ch)) rest' := by
                          rw [show tc ++ b2 :: t2 = (tc ++ [b2]) ++ t2 by simp]
                          rw [show tc ++ b2 :: rest' = (tc ++ [b2]) ++ rest' by simp]
                          exact get6_shift (tc ++ [b2]) t2 iv iver ch rest'
                        rw [hshift]
                        exact get6_ver_irrel t2 iv ver iver ch rest'
                      · rw [get6_inner_ext_none tc none ver rest'
                          (by simp [branchOf, hb1, hb2] : branchOf
                            [(b1, tnode.leaf t1 v),
                             (b2, tnode.inner t2 iv ver ch)] b' = none)]
                        rw [get6_inner_none (by
                          rw [cpfx_append]
                          have hb2' : ¬ b' = b2 := fun e => hb2 (Eq.symm e)
                          have hn : cpfx (b' :: rest') (b2 :: t2) = [] := by
                            simp [cpfx, hb2']
                          rw [hn]
                          simp)]
                · rw [get6_inner_none hcp']
                  rw [get6_inner_none (by
                    intro e
                    apply hcp'
                    have e' := (cpfx_comm _ _).trans e
                    obtain ⟨t, ht⟩ := exists_of_cpfx_left e'
                    rw [ht, List.append_assoc]
                    exact cpfx_append_left _ _)]

theorem toKey6_inj {a b : List Nat} (ha : ∀ x ∈ a, x < 256)
    (hb : ∀ x ∈ b, x < 256) (h : toKey6 a = toKey6 b) : a = b := by
  rw [← fromKey6_toKey6 a ha, ← fromKey6_toKey6 b hb, h]

theorem get6_runUpserts_aux :
    ∀ (ops : List (List Nat × List Nat)) (s : WSession) (k6 : List Nat),
    (∀ p ∈ ops, toKey6 p.1 ≠ k6) →
    get6 (ops.foldl (fun s p => (upsertS s p.1 p.2).1) s).root k6 =
      get6 s.root k6 := by
  intro ops
  induction ops with
  | nil => intro s k6 h; rfl
  | cons p rest ih =>
    intro s k6 h
    simp only [List.foldl_cons]
    rw [ih _ k6 (fun q hq => h q (by simp [hq]))]
    show get6 (some (add_child s.ver s.root (toKey6 p.1) p.2).1) k6 = _
    rw [add_child, get6_add_child _ _ _ _ _ _ (by omega)]
    rw [if_neg (fun e => h p (by simp) (Eq.symm e))]

/-- Claim C1: upserting key k with value v makes get(k) return v, on any
write-session state; and a key never stored by any upsert of a run from
the empty session is not found. -/
theorem claim_C1 :
    (∀ (s : WSession) (k v : List Nat), k.length ≤ 128 →
      getS (upsertS s k v).1 k = some v) ∧
    (∀ (ops : List (List Nat × List Nat)) (k : List Nat),
      k.length ≤ 128 → (∀ x ∈ k, x < 256) →
      (∀ p ∈ ops, ∀ x ∈ p.1, x < 256) →
      k ∉ ops.map Prod.fst →
      getS (runUpserts ops) k = none) := by
  constructor
  · intro s k v _
    show get6 (some (add_child s.ver s.root (toKey6 k) v).1) (toKey6 k) = some v
    rw [add_child, get6_add_child _ _ _ _ _ _ (by omega), if_pos rfl]
  · intro ops k _ hk hops hmem
    show get6 (runUpserts ops).root (toKey6 k) = none
    rw [runUpserts, get6_runUpserts_aux ops emptySession (toKey6 k)
      (by
        intro p hp he
        exact hmem (by
          rw [← toKey6_inj (fun x hx => hops p hp x hx) hk he] at hmem ⊢
          exact List.mem_map_of_mem Prod.fst hp))]
    rfl

theorem claim_C1_witness :
    ([97] : List Nat).length ≤ 128 ∧
    getS (upsertS emptySession [97] [1, 2]).1 [97] = some [1, 2] ∧
    getS (runUpserts [([4], [9])]) [5] = none :=
  ⟨by decide,
   claim_C1.1 emptySession [97] [1, 2] (by decide),
   claim_C1.2 [([4], [9])] [5] (by decide) (by decide) (by decide) (by decide)⟩

/-! ### The populated-slot invariant (claim C4) -/

/-- Structural well-formedness of a trie node: every inner node in the
tree has distinct branch indices (so the branch list stands for a bitmap
plus packed child array, `popcount(branches) == len(children)`) and at
least 2 populated slots, counting a non-null value as one slot. -/
inductive Good : tnode → Prop where
  | leaf (k d : List Nat) : Good (.leaf k d)
  | inner (ik : List Nat) (iv : Option (List Nat)) (iver : Nat)
      (ch : List (Nat × tnode))
      (hn : (ch.map Prod.fst).Nodup)
      (hs : 2 ≤ ch.length + (if iv.isSome then 1 else 0))
      (hch : ∀ p ∈ ch, Good p.2) : Good (.inner ik iv iver ch)

def GoodO : Option tnode → Prop
  | none => True
  | some t => Good t

theorem mem_keys_setBranch : ∀ (ch : List (Nat × tnode)) (b : Nat) (t : tnode)
    (x : Nat), x ∈ (setBranch ch b t).map Prod.fst →
    x ∈ ch.map Prod.fst ∨ x = b := by
  intro ch
  induction ch with
  | nil => intro b t x hx; simp [setBranch] at hx; simp [hx]
  | cons p rest ih =>
    intro b t x hx
    by_cases hp : p.1 = b
    · simp only [setBranch, if_pos hp] at hx
      simp at hx
      rcases hx with hx | hx
      · simp [hx]
      · simp [hx]
    · simp only [setBranch, if_neg hp] at hx
      simp at hx
      rcases hx with hx | hx
      · simp [hx]
      · rcases ih b t x (by simpa using hx) with h | h
        · simp [h]
        · simp [h]

theorem nodup_setBranch : ∀ (ch : List (Nat × tnode)) (b : Nat) (t : tnode),
    (ch.map Prod.fst).Nodup → ((setBranch ch b t).map Prod.fst).Nodup := by
  intro ch
  induction ch with
  | nil => intro b t _; simp [setBranch]
  | cons p rest ih =>
    intro b t hn
    simp only [List.map_cons, List.nodup_cons] at hn
    by_cases hp : p.1 = b
    · simp only [setBranch, if_pos hp, List.map_cons, List.nodup_cons]
      exact ⟨by rw [← hp]; exact hn.1, hn.2⟩
    · simp only [setBranch, if_neg hp, List.map_cons, List.nodup_cons]
      refine ⟨?_, ih b t hn.2⟩
      intro hmem
      rcases mem_keys_setBranch rest b t p.1 hmem with h | h
      · exact hn.1 h
      · exact hp h

theorem length_setBranch_ge : ∀ (ch : List (Nat × tnode)) (b : Nat) (t : tnode),
    ch.length ≤ (setBranch ch b t).length := by
  intro ch
  induction ch with
  | nil => intro b t; simp [setBranch]
  | cons p rest ih =>
    intro b t
    by_cases hp : p.1 = b
    · simp [setBranch, hp]
    · simp only [setBranch, if_neg hp, List.length_cons]
      exact Nat.succ_le_succ (ih b t)

theorem mem_setBranch : ∀ (ch : List (Nat × tnode)) (b : Nat) (t : tnode)
    (p : Nat × tnode), p ∈ setBranch ch b t → p = (b, t) ∨ p ∈ ch := by
  intro ch
  induction ch with
  | nil => intro b t p hp; simp [setBranch] at hp; simp [hp]
  | cons q rest ih =>
    intro b t p hp
    by_cases hq : q.1 = b
    · simp only [setBranch, if_pos hq] at hp
      simp at hp
      rcases hp with hp | hp
      · simp [hp]
      · simp [hp]
    · simp only [setBranch, if_neg hq] at hp
      simp at hp
      rcases hp with hp | hp
      · simp [hp]
      · rcases ih b t p hp with h | h
        · simp [h]
        · simp [h]

theorem mem_removeBranch : ∀ (ch : List (Nat × tnode)) (b : Nat)
    (p : Nat × tnode), p ∈ removeBranch ch b → p ∈ ch := by
  intro ch
  induction ch with
  | nil => intro b p hp; simp [removeBranch] at hp
  | cons q rest ih =>
    intro b p hp
    by_cases hq : q.1 = b
    · simp only [removeBranch, if_pos hq] at hp
      simp [hp]
    · simp only [removeBranch, if_neg hq] at hp
      simp at hp
      rcases hp with hp | hp
      · simp [hp]
      · simp [ih b p hp]

theorem nodup_removeBranch : ∀ (ch : List (Nat × tnode)) (b : Nat),
    (ch.map Prod.fst).Nodup → ((removeBranch ch b).map Prod.fst).Nodup := by
  intro ch
  induction ch with
  | nil => intro b _; simp [removeBranch]
  | cons q rest ih =>
    intro b hn
    simp only [List.map_cons, List.nodup_cons] at hn
    by_cases hq : q.1 = b
    · simp only [removeBranch, if_pos hq]
      exact hn.2
    · simp only [removeBranch, if_neg hq, List.map_cons, List.nodup_cons]
      refine ⟨?_, ih b hn.2⟩
      intro hmem
      simp only [List.mem_map] at hmem
      obtain ⟨p, hp, he⟩ := hmem
      exact hn.1 (by
        simp only [List.mem_map]
        exact ⟨p, mem_removeBranch rest b p hp, he⟩)

theorem branchOf_mem : ∀ (ch : List (Nat × tnode)) (b : Nat) (c : tnode),
    branchOf ch b = some c → (b, c) ∈ ch := by
  intro ch
  induction ch with
  | nil => intro b c h; simp [branchOf] at h
  | cons q rest ih =>
    intro b c h
    by_cases hq : q.1 = b
    · simp only [branchOf, if_pos hq] at h
      cases h
      rw [← hq]
      exact List.mem_cons_self q rest
    · simp only [branchOf, if_neg hq] at h
      exact List.mem_cons_of_mem q (ih b c h)

theorem good_branchOf {ch : List (Nat × tnode)} (hch : ∀ p ∈ ch, Good p.2) :
    ∀ b : Nat, GoodO (branchOf ch b) := by
  intro b
  cases hb : branchOf ch b with
  | none => trivial
  | some c => exact hch (b, c) (branchOf_mem ch b c hb)

theorem good_combineGo {ver : Nat} {k1 v1 k2 v2 : List Nat}
    (hne : k1 ≠ k2) (hlen : k1.length ≤ k2.length) :
    Good (combineGo ver k1 v1 k2 v2) := by
  by_cases hc : cpfx k1 k2 = k1
  · obtain ⟨b2, t2, hd⟩ := ext_decomp' (by rw [cpfx_comm]; exact hc) (Ne.symm hne)
    subst hd
    have hnode : combineGo ver k1 v1 (k1 ++ b2 :: t2) v2 =
        tnode.inner k1 (some v1) ver [(b2, tnode.leaf t2 v2)] := by
      simp only [combineGo, cpfx_self_append, if_pos rfl]
      rw [drop_len_append k1 (b2 :: t2)]
      simp
    rw [hnode]
    exact Good.inner _ _ _ _ (by simp) (by simp) (by
      intro p hp
      simp at hp
      rw [hp]
      exact Good.leaf _ _)
  · have hc2 : cpfx k1 k2 ≠ k2 := by
      intro e
      have hl2 := cpfx_length_le_left k1 k2
      rw [e] at hl2
      obtain ⟨t, ht⟩ := cpfx_pfx k1 k2
      rw [e] at ht
      have hlen2 := congrArg List.length ht
      rw [List.length_append] at hlen2
      have hte : t = [] := List.eq_nil_of_length_eq_zero (by omega)
      subst hte
      simp at ht
      exact hne ht
    obtain ⟨t1', hd1⟩ := cpfx_pfx k1 k2
    obtain ⟨t2', hd2⟩ := cpfx_pfx k2 k1
    rw [cpfx_comm k2 k1] at hd2
    cases t1' with
    | nil => exact absurd (by simpa using hd1.symm) hc
    | cons b1 t1 =>
      cases t2' with
      | nil => exact absurd (by simpa using hd2.symm) hc2
      | cons b2 t2 =>
        have hb : b1 ≠ b2 := by
          intro he
          subst he
          have e := cpfx_append (cpfx k1 k2) (b1 :: t1) (b1 :: t2)
          rw [← hd1, ← hd2] at e
          have hlen3 := congrArg List.length e
          rw [List.length_append] at hlen3
          have : cpfx (b1 :: t1) (b1 :: t2) = [] :=
            List.eq_nil_of_length_eq_zero (by omega)
          simp [cpfx] at this
        obtain ⟨c, hc_eq⟩ : ∃ c, cpfx k1 k2 = c := ⟨_, rfl⟩
        rw [hc_eq] at hd1 hd2
        rw [hd1, hd2]
        have hcp : cpfx (c ++ b1 :: t1) (c ++ b2 :: t2) = c := by
          rw [cpfx_append]; simp [cpfx, hb]
        have hnode : combineGo ver (c ++ b1 :: t1) v1 (c ++ b2 :: t2) v2 =
            tnode.inner c none ver
              [(b1, tnode.leaf t1 v1), (b2, tnode.leaf t2 v2)] := by
          simp only [combineGo, hcp]
          rw [if_neg (show ¬ c = c ++ b1 :: t1 by simp)]
          rw [drop_len_append c (b1 :: t1), drop_len_append c (b2 :: t2)]
          simp
        rw [hnode]
        exact Good.inner _ _ _ _ (by simp [hb]) (by simp) (by
          intro p hp
          simp at hp
          rcases hp with hp | hp <;> rw [hp] <;> exact Good.leaf _ _)

theorem good_combine {ver : Nat} {k1 v1 k2 v2 : List Nat} (hne : k1 ≠ k2) :
    Good (combine_value_nodes ver k1 v1 k2 v2) := by
  unfold combine_value_nodes
  by_cases hl : k1.length > k2.length
  · rw [if_pos hl]
    exact good_combineGo (Ne.symm hne) (by omega)
  · rw [if_neg hl]
    exact good_combineGo hne (by omega)

theorem good_add : ∀ (fuel ver : Nat) (root : Option tnode) (key v : List Nat),
    GoodO root → Good (add_childN fuel ver root key v).1 := by
  intro fuel
  induction fuel with
  | zero => intro ver root key v _; exact Good.leaf _ _
  | succ n ih =>
    intro ver root key v hg
    cases root with
    | none => exact Good.leaf _ _
    | some t =>
      cases t with
      | leaf k d =>
        simp only [add_childN]
        by_cases hkd : k ≠ key
        · rw [if_pos hkd]
          exact good_combine hkd
        · rw [if_neg hkd]
          exact Good.leaf _ _
      | inner ik iv iver ch =>
        have hg' : Good (.inner ik iv iver ch) := hg
        cases hg' with
        | inner _ _ _ _ hn hs hch =>
        simp only [add_childN]
        by_cases hik : ik = key
        · rw [if_pos hik]
          have hif : (if iv.isSome then (1 : Nat) else 0) ≤ 1 := by
            split <;> omega
          have hlen : 1 ≤ ch.length := by omega
          simp only [set_inner_value]
          split
          · exact Good.inner _ _ _ _ hn (by simp; omega) hch
          · exact Good.inner _ _ _ _ hn (by simp; omega) hch
        · rw [if_neg hik]
          by_cases hcp : cpfx ik key = ik
          · rw [if_pos hcp]
            have hbg := ih ver (branchOf ch (key.getD (cpfx ik key).length 0))
              (key.drop ((cpfx ik key).length + 1)) v
              (good_branchOf hch (key.getD (cpfx ik key).length 0))
            have hgoal : ∀ w : Nat, Good (tnode.inner ik iv w
                (setBranch ch (key.getD (cpfx ik key).length 0)
                  (add_childN n ver
                    (branchOf ch (key.getD (cpfx ik key).length 0))
                    (key.drop ((cpfx ik key).length + 1)) v).1)) := by
              intro w
              refine Good.inner _ _ _ _ (nodup_setBranch _ _ _ hn) ?_ ?_
              · have hle := length_setBranch_ge ch
                  (key.getD (cpfx ik key).length 0)
                  (add_childN n ver
                    (branchOf ch (key.getD (cpfx ik key).length 0))
                    (key.drop ((cpfx ik key).length + 1)) v).1
                omega
              · intro p hp
                rcases mem_setBranch _ _ _ p hp with h | h
                · rw [h]; exact hbg
                · exact hch p h
            split
            · exact hgoal ver
            · exact hgoal iver
          · rw [if_neg hcp]
            by_cases hck : cpfx ik key = key
            · rw [if_pos hck]
              refine Good.inner _ _ _ _ (by simp) (by simp) ?_
              intro p hp
              simp at hp
              rw [hp]
              exact Good.inner _ _ _ _ hn hs hch
            · rw [if_neg hck]
              have hb : key.getD (cpfx ik key).length 0 ≠
                  ik.getD (cpfx ik key).length 0 := by
                have hne := cpfx_head_ne ik key hcp hck
                exact fun e => hne (Eq.symm e)
              refine Good.inner _ _ _ _ ?_ (by simp) ?_
              · exact List.nodup_cons.mpr
                  ⟨fun h => hb (List.mem_singleton.mp h), List.nodup_singleton _⟩
              · intro p hp
                simp at hp
                rcases hp with hp | hp
                · rw [hp]; exact Good.leaf _ _
                · rw [hp]; exact Good.inner _ _ _ _ hn hs hch

theorem good_remove : ∀ (fuel ver : Nat) (root : Option tnode) (key : List Nat),
    GoodO root → GoodO (remove_childN fuel ver root key).1 := by
  intro fuel
  induction fuel with
  | zero => intro ver root key hg; exact hg
  | succ n ih =>
    intro ver root key hg
    cases root with
    | none => trivial
    | some t =>
      cases t with
      | leaf k d =>
        simp only [remove_childN]
        by_cases hk : k = key
        · rw [if_pos hk]; trivial
        · rw [if_neg hk]; exact hg
      | inner ik iv iver ch =>
        have hg' : Good (.inner ik iv iver ch) := hg
        cases hg' with
        | inner _ _ _ _ hn hs hch =>
        simp only [remove_childN]
        by_cases hl : ik.length > key.length
        · rw [if_pos hl]; exact hg
        · rw [if_neg hl]
          by_cases hik : ik = key
          · rw [if_pos hik]
            cases iv with
            | none => exact hg
            | some ivd =>
              dsimp only
              have hs' : 2 ≤ ch.length + 1 := by simpa using hs
              by_cases h1 : ch.length = 1
              · rw [if_pos h1]
                obtain ⟨p, hp⟩ : ∃ p, ch = [p] := by
                  cases ch with
                  | nil => simp at h1
                  | cons a t =>
                    cases t with
                    | nil => exact ⟨a, rfl⟩
                    | cons b t2 => simp at h1
                subst hp
                obtain ⟨b, pt⟩ := p
                cases pt with
                | leaf bk bd => exact Good.leaf _ _
                | inner bk bv bver bch =>
                  have hcg : Good (.inner bk bv bver bch) :=
                    hch (b, .inner bk bv bver bch) (by simp)
                  cases hcg with
                  | inner _ _ _ _ hn2 hs2 hch2 =>
                    exact Good.inner _ _ _ _ hn2 hs2 hch2
              · rw [if_neg h1]
                split
                · exact Good.inner _ _ _ _ hn (by simp; omega) hch
                · exact Good.inner _ _ _ _ hn (by simp; omega) hch
          · rw [if_neg hik]
            cases hbr : branchOf ch (key.getD ik.length 0) with
            | none => exact hg
            | some curb =>
              dsimp only
              by_cases hcp : cpfx ik key ≠ ik
              · rw [if_pos hcp]; exact hg
              · rw [if_neg hcp]
                have hcur : Good curb := hch _ (branchOf_mem _ _ _ hbr)
                have hrg := ih ver (some curb) (key.drop (ik.length + 1)) hcur
                obtain ⟨e, he⟩ : ∃ e,
                    remove_childN n ver (some curb) (key.drop (ik.length + 1))
                      = e := ⟨_, rfl⟩
                rw [he] at hrg ⊢
                obtain ⟨e1, e2, e3⟩ := e
                cases e3 with
                | true =>
                  cases e1 with
                  | some nbt =>
                    dsimp only
                    have hnb : Good nbt := hrg
                    refine Good.inner _ _ _ _ (nodup_setBranch _ _ _ hn) ?_ ?_
                    · have hle := length_setBranch_ge ch
                        (key.getD ik.length 0) nbt
                      omega
                    · intro p hp
                      rcases mem_setBranch _ _ _ p hp with h | h
                      · rw [h]; exact hnb
                      · exact hch p h
                  | none => exact hg
                | false =>
                  cases e1 with
                  | some nbt =>
                    dsimp only
                    have hnb : Good nbt := hrg
                    by_cases hv : iver = ver
                    · rw [if_pos hv]
                      refine Good.inner _ _ _ _ (nodup_setBranch _ _ _ hn) ?_ ?_
                      · have hle := length_setBranch_ge ch
                          (key.getD ik.length 0) nbt
                        omega
                      · intro p hp
                        rcases mem_setBranch _ _ _ p hp with h | h
                        · rw [h]; exact hnb
                        · exact hch p h
                    · rw [if_neg hv]
                      exact hnb
                  | none =>
                    dsimp only
                    by_cases hbig : (removeBranch ch (key.getD ik.length 0)).length
                        + (if iv.isSome then 1 else 0) > 1
                    · rw [if_pos hbig]
                      refine Good.inner _ _ _ _ (nodup_removeBranch _ _ hn)
                        (by omega) ?_
                      intro p hp
                      exact hch p (mem_removeBranch _ _ p hp)
                    · rw [if_neg hbig]
                      cases hnch : removeBranch ch (key.getD ik.length 0) with
                      | nil =>
                        cases iv with
                        | some ivd2 => exact Good.leaf _ _
                        | none => exact hg
                      | cons q rest =>
                        cases rest with
                        | cons q2 rest2 =>
                          obtain ⟨lb, qt⟩ := q
                          cases qt <;> exact hg
                        | nil =>
                          obtain ⟨lb, qt⟩ := q
                          cases qt with
                          | leaf ck cd => exact Good.leaf _ _
                          | inner ck cv cver cch =>
                            have hcg : Good (.inner ck cv cver cch) :=
                              hch (lb, .inner ck cv cver cch)
                                (mem_removeBranch _ _ _ (by rw [hnch]; simp))
                            cases hcg with
                            | inner _ _ _ _ hn2 hs2 hch2 =>
                              exact Good.inner _ _ _ _ hn2 hs2 hch2

theorem goodO_runOps (ops : List DbOp) : GoodO (runOps ops).root := by
  have h : ∀ s : WSession, GoodO s.root →
      GoodO ((ops.foldl
        (fun s op => match op with
          | .upsert k v => (upsertS s k v).1
          | .remove k => (removeS s k).1) s).root) := by
    induction ops with
    | nil => intro s hg; exact hg
    | cons op rest ih =>
      intro s hg
      simp only [List.foldl_cons]
      apply ih
      cases op with
      | upsert k v => exact good_add _ _ _ _ _ hg
      | remove k => exact good_remove _ _ _ _ hg
  exact h emptySession trivial

/-- The populated-slot property in claim C4's own words: every inner node
has at least 2 populated slots, a non-null value counting as one slot
(the branch-list length stands for `popcount(branches)`). -/
inductive Slots2 : tnode → Prop where
  | leaf (k d : List Nat) : Slots2 (.leaf k d)
  | inner (ik : List Nat) (iv : Option (List Nat)) (iver : Nat)
      (ch : List (Nat × tnode))
      (hs : 2 ≤ ch.length + (if iv.isSome then 1 else 0))
      (hch : ∀ p ∈ ch, Slots2 p.2) : Slots2 (.inner ik iv iver ch)

/-- Every inner node reachable from the root, except possibly the root
itself, has ≥ 2 populated slots. -/
def nonRootSlots : Option tnode → Prop
  | none => True
  | some (.leaf _ _) => True
  | some (.inner _ _ _ ch) => ∀ p ∈ ch, Slots2 p.2

theorem slots2_of_good : ∀ t : tnode, Good t → Slots2 t := by
  intro t hg
  induction hg with
  | leaf k d => exact Slots2.leaf k d
  | inner ik iv iver ch hn hs hch ih => exact Slots2.inner ik iv iver ch hs ih

/-- Claim C4: after any sequence of upsert and remove operations starting
from the empty trie, every inner node reachable from the session root,
except possibly the root itself, has at least 2 populated slots, where
the populated-slot count is the number of branches plus 1 if the node's
value is non-null. -/
theorem claim_C4 (ops : List DbOp) : nonRootSlots (runOps ops).root := by
  have hg := goodO_runOps ops
  cases hr : (runOps ops).root with
  | none => trivial
  | some t =>
    rw [hr] at hg
    cases t with
    | leaf k d => trivial
    | inner ik iv iver ch =>
      have hg' : Good (.inner ik iv iver ch) := hg
      cases hg' with
      | inner _ _ _ _ hn hs hch =>
        intro p hp
        exact slots2_of_good p.2 (hch p hp)

/-! ### Concrete scenarios for the remaining claims -/

/-- Four keys stored and the session forked: after the fork every inner
node's version differs from the writer's version, so a remove below the
root takes the copy-on-write update-branch path of `remove_child`. -/
def s2demo : WSession :=
  runUpserts [([4, 32, 192], [1]), ([4, 33, 0], [2]),
    ([4, 80, 0], [7]), ([36, 0, 0], [8])]

/-- Claim C2: on a forked session, removing a mapped key must return its
size, make `get` of that key `none` and leave every other key's value
unchanged.  The theorem shows the source violating the last part on
`s2demo`: `remove [4,32,192]` reports size 1, but afterwards the sibling
keys [4,80,0] and [4,33,0] - mapped before the remove - read back `none`,
because the update-branch path of `remove_child` returns the fresh child
id instead of the rebuilt parent (database.hpp:1432). -/
theorem claim_C2 :
    (removeS (forkS s2demo) [4, 32, 192]).2 = 1 ∧
    getS (forkS s2demo) [4, 80, 0] = some [7] ∧
    getS (forkS s2demo) [4, 33, 0] = some [2] ∧
    getS (removeS (forkS s2demo) [4, 32, 192]).1 [4, 80, 0] = none ∧
    getS (removeS (forkS s2demo) [4, 32, 192]).1 [4, 33, 0] = none := by
  decide

/-- Claim C3: the 6-bit key encoding round-trips: for every 8-bit byte
string k, `from_key6 (to_key6 k) = k`. -/
theorem claim_C3 (k : List Nat) (h : ∀ x ∈ k, x < 256) :
    fromKey6 (toKey6 k) = k :=
  fromKey6_toKey6 k h

theorem claim_C3_witness :
    (∀ x ∈ [0, 97, 255], x < 256) ∧
      fromKey6 (toKey6 [0, 97, 255]) = [0, 97, 255] :=
  ⟨by decide, claim_C3 [0, 97, 255] (by decide)⟩

/-- Three single-byte-keyed values: 0x04, 0x05 and 0xF0. -/
def s5demo : WSession := runUpserts [([4], [1]), ([5], [2]), ([240], [3])]

/-- Claim C5: `lower_bound k` must position at the smallest stored key
≥ k, or be invalid when none exists.  On `s5demo` the query 0x06 has the
stored key 0xF0 above it, yet the source returns a non-empty (valid)
iterator whose key is the empty string - not a stored key at all -
because the descent at a branch with no entry ≥ the next key unit
returns without repositioning (database.hpp:1177). -/
theorem claim_C5 :
    getS s5demo [240] = some [3] ∧
    ltKeyB (toKey6 [6]) (toKey6 [240]) = true ∧
    List.length (lower_bound s5demo [6]) = 1 ∧
    keyOfPath (lower_bound s5demo [6]) = [] ∧
    getS s5demo [] = none := by
  decide

/-- Two stored keys, 0x14 0x01 and 0xF0; neither has the byte 0x0C as a
prefix. -/
def s6demo : WSession := runUpserts [([20, 1], [1]), ([240], [2])]

/-- Claim C6: `last_with_prefix p` must position at the greatest stored
key having p as a prefix and be invalid when no stored key does - in
particular it must never denote a key that does not start with p.  On
`s6demo` no stored key has prefix 0x0C, yet the source returns a valid
iterator denoting 6-bit key [0,4] - byte key 0x00 - which neither starts
with 0x0C nor is stored at all: the descent takes
`branch(lower_bound(prefix unit))`, a branch above the prefix unit, and
records no path entries while consuming the prefix
(database.hpp:1111-1113). -/
theorem claim_C6 :
    List.length (last_with_pfx s6demo [12]) = 1 ∧
    keyOfPath (last_with_pfx s6demo [12]) = [0, 4] ∧
    fromKey6 [0, 4] = [0] ∧
    cpfx [0] [12] ≠ [12] ∧
    cpfx [20, 1] [12] ≠ [12] ∧
    cpfx [240] [12] ≠ [12] ∧
    getS s6demo [0] = none := by
  decide

/-- A directory with two allocated ids (1 and 2, both with non-zero
refcounts) and an empty free list. -/
def gcDemo : GcHeader :=
  ⟨0, 0, 2, fun i => if i = 1 then 5 else if i = 2 then 3 else 0⟩

/-- Claim C7: after `gc_start` (which resets both refcounts to 1) and no
retains, `gc_finish` is supposed to chain both ids - refcount ≤ 1 - into
the free list in next-free-pointer form with the header's head pointing
at the chain.  Instead both slots still hold the bare refcount 1 (not
`create_next_ptr` of anything) and the free-list head ends at 0: the
source's `last_free` pointer is never advanced past the header, so every
link store lands on the header's `first_free` and the final
`last_free->store(0)` erases even that (object_db.hpp:453-470).  Only the
flag-clearing part of the claim survives. -/
theorem claim_C7 :
    (gc_finish (gc_start gcDemo)).first_free = 0 ∧
    (gc_finish (gc_start gcDemo)).objects 1 = 1 ∧
    (gc_finish (gc_start gcDemo)).objects 2 = 1 ∧
    (gc_finish (gc_start gcDemo)).flags = 0 := by
  decide

/-- A two-node trie for the recovery walk: id 1 is an inner node with no
value and the single child id 2, a leaf.  Both refcounts are 1, as
`start_collect_garbage` leaves them. -/
def rrDemoH : Nat → Option RNode :=
  fun i => if i = 1 then some (RNode.inner 0 [2])
           else if i = 2 then some RNode.leaf else none

def rrDemoRefs : Nat → Nat := fun i => if i = 1 then 1 else if i = 2 then 1 else 0

theorem rrLoop_none : ∀ (fuel : Nat) (refs : Nat → Nat) (e : Nat), e ≠ 0 →
    rrLoop rrDemoH refs [2] 0 e fuel = none := by
  intro fuel
  induction fuel with
  | zero => intro refs e he; rfl
  | succ n ih =>
    intro refs e he
    simp only [rrLoop]
    rw [if_neg (fun h => he (Eq.symm h))]
    cases n with
    | zero => rfl
    | succ m =>
      have hg : ([2] : List Nat).getD 0 0 = 2 := rfl
      have hrr : rr rrDemoH refs 2 (m + 1) = some (bumpRef refs 2) := by
        simp only [rr]
        rw [if_neg (by omega : ¬ (2 : Nat) = 0)]
        by_cases hc : refs 2 > 1
        · rw [if_pos hc]
        · rw [if_neg hc]
          rfl
      rw [hg, hrr]
      exact ih (bumpRef refs 2) (e + 1) (by omega)

/-- Claim C8: `recursive_retain` is supposed to terminate on every finite
well-formed trie.  On the two-node trie `rrDemoH` the call on the root
never finishes within any step bound: the child loop executes `++e`
instead of `++c` (database.hpp:1576), so the cursor stays on the first
child and never meets the end pointer. -/
theorem claim_C8 : ∀ fuel : Nat, rr rrDemoH rrDemoRefs 1 fuel = none := by
  intro fuel
  cases fuel with
  | zero => rfl
  | succ n =>
    cases n with
    | zero => rfl
    | succ m =>
      have h1 : rr rrDemoH rrDemoRefs 1 (m + 2) =
          rrLoop rrDemoH (bumpRef rrDemoRefs 1) [2] 0 1 (m + 1) := rfl
      rw [h1]
      exact rrLoop_none (m + 1) (bumpRef rrDemoRefs 1) 1 one_ne_zero

/-- Claim C9: `run_one` must return false only when the done flag is set,
and drain a used front entry otherwise.  The early return is inverted
(`if (!_done) return false;`, region_allocator.cpp:285): in every state
where done is false and the wait predicate holds - e.g. a used entry at
the queue front - `run_one` returns false immediately, evacuating
nothing and ending the compactor loop. -/
theorem claim_C9 (evac : CState → QItem → CState) (s : CState)
    (h1 : s.done = false) (h2 : waitPred s = true) :
    run_one evac s = some (false, s) := by
  simp [run_one, h1, h2]

/-- A state with done unset and a used entry at the queue front. -/
def c9state : CState := ⟨false, fun _ => ⟨0, 8, 0, 8⟩, 0, 0⟩

theorem claim_C9_witness :
    c9state.done = false ∧ waitPred c9state = true ∧
    is_used (c9state.queue c9state.front) = true ∧
    run_one (fun s _ => s) c9state = some (false, c9state) :=
  ⟨rfl, rfl, rfl, claim_C9 (fun s _ => s) c9state rfl rfl⟩

/-- Claim C10: decoding a slot into the documented fields and re-encoding
is claimed to restore every 64-bit value, the offset spanning bits 18-63.
The `_offset` bitfield is declared 45 bits wide (object_db.hpp:36), so
the slot with only bit 63 set decodes and re-encodes to 0; a value inside
the low 63 bits survives. -/
theorem claim_C10 :
    object_info.to_int (object_info.ofInt (2 ^ 63)) = 0 ∧
    object_info.to_int (object_info.ofInt 123456789) = 123456789 := by
  decide

end Triedent
